import Mathlib

/-!
Verification of the n-puzzle solver: board data model (`puzzle.py`),
heuristics (`heuristics.py`) and the A* search engine (`search.py`),
shallowly embedded in Lean.  Tiles are the row-major flat tuple of the
Python `Board`; the blank is `0`.
-/

/-- Immutable n-puzzle board: `n` is the grid dimension, `tiles` the
row-major flat sequence with `0` for the blank, `zero` the cached index
of the blank (mirrors `Board` in `puzzle.py`). -/
structure Board where
  n : Nat
  tiles : List Nat
  zero : Nat
deriving DecidableEq, Repr

/-- The solved flat sequence `(1, 2, ..., n*n-1, 0)` (from `Board.goal`). -/
def goalTiles (n : Nat) : List Nat :=
  List.range' 1 (n * n - 1) ++ [0]

/-- `Board.goal` from `puzzle.py`: the solved n×n board. -/
def Board.goal (n : Nat) : Board :=
  let flat := goalTiles n
  ⟨n, flat, flat.findIdx (fun x => decide (x = 0))⟩

/-- `Board.from_flat` from `puzzle.py`: validates the length and that the
sequence is exactly a permutation of `{0, ..., n*n-1}` (the Python code
compares `set(flat)` with `set(range(n*n))`), else raises. -/
def Board.from_flat (n : Nat) (flat : List Nat) : Except String Board :=
  if flat.length ≠ n * n then .error "InvalidBoard"
  else if flat.toFinset ≠ (List.range (n * n)).toFinset then .error "InvalidBoard"
  else .ok ⟨n, flat, flat.findIdx (fun x => decide (x = 0))⟩

/-- `Board.from_rows` from `puzzle.py`: derives `n` from the row count,
flattens, and delegates to `from_flat`. -/
def Board.from_rows (rows : List (List Nat)) : Except String Board :=
  Board.from_flat rows.length rows.flatten

/-- `Board.is_goal` from `puzzle.py`: structural comparison with the goal tiles. -/
def Board.is_goal (b : Board) : Bool :=
  decide (b.tiles = goalTiles b.n)

/-- The inversion count as computed by the loop in `Board.is_solvable`:
for each element, the number of strictly smaller elements to its right. -/
def inversions : List Nat → Nat
  | [] => 0
  | a :: rest => rest.countP (fun x => decide (x < a)) + inversions rest

/-- `Board.is_solvable` from `puzzle.py`: inversion parity of the tile
sequence with the blank removed; odd `n`: solvable iff inversions even;
even `n`: solvable iff inversions plus the blank's 1-based row from the
bottom (`n - zero / n`) is odd. -/
def Board.is_solvable (b : Board) : Bool :=
  let arr := b.tiles.filter (fun x => decide (x ≠ 0))
  let inv := inversions arr
  if b.n % 2 = 1 then decide (inv % 2 = 0)
  else decide ((inv + (b.n - b.zero / b.n)) % 2 = 1)

/-- The simultaneous swap `lst[z], lst[nz] = lst[nz], lst[z]` used by
`Board.neighbors` and `manual_move`. -/
def swapIdx (l : List Nat) (i j : Nat) : List Nat :=
  (l.set i (l.getD j 0)).set j (l.getD i 0)

/-- `Board.neighbors` from `puzzle.py`: the child boards obtained by
sliding the blank, in the fixed order Up, Down, Left, Right, each present
exactly when the move stays inside the grid. -/
def Board.neighbors (b : Board) : List Board :=
  let n := b.n
  let z := b.zero
  let r := z / n
  let c := z % n
  let targets :=
    (if 0 < r then [z - n] else []) ++
    (if r < n - 1 then [z + n] else []) ++
    (if 0 < c then [z - 1] else []) ++
    (if c < n - 1 then [z + 1] else [])
  targets.map (fun nz => ⟨n, swapIdx b.tiles z nz, nz⟩)

/-- The data-model invariant of a `Board` (spec §3): `n ≥ 2`, `tiles` a
permutation of `{0, ..., n*n-1}`, and `zero` the index of the blank. -/
def Board.Valid (b : Board) : Prop :=
  2 ≤ b.n ∧ b.tiles.Perm (List.range (b.n * b.n)) ∧
    b.zero = b.tiles.findIdx (fun x => decide (x = 0))

instance (b : Board) : Decidable b.Valid := by
  unfold Board.Valid; infer_instance

-- Heuristics (heuristics.py) -------------------------------------------

/-- `h1_misplaced`: the number of positions holding a non-blank tile away
from its goal position (the Python test is `v != 0 and i != v - 1`). -/
def h1_misplaced (board : Board) : Nat :=
  (board.tiles.enum.filter (fun p => decide (p.2 ≠ 0 ∧ p.1 ≠ p.2 - 1))).length

/-- The Manhattan distance of the tile with value `v` sitting at flat
index `i`, exactly as in `h2_manhattan`: goal position of `v` is
`divmod (v-1) n`, current position `divmod i n`. -/
def manDist (n i v : Nat) : Nat :=
  Nat.dist (i / n) ((v - 1) / n) + Nat.dist (i % n) ((v - 1) % n)

/-- `h2_manhattan`: the sum of the Manhattan distances of the non-blank
tiles from their goal positions. -/
def h2_manhattan (board : Board) : Nat :=
  (board.tiles.enum.map (fun p => if p.2 = 0 then 0 else manDist board.n p.1 p.2)).sum

/-- The inversion count of `_linear_conflicts_in_line`: the number of
pairs `i < j` with `seq[i].2 > seq[j].2`. -/
def countledPairs : List (Nat × Nat) → Nat
  | [] => 0
  | a :: rest => rest.countP (fun x => decide (x.2 < a.2)) + countledPairs rest

/-- `_linear_conflicts_in_line` from `heuristics.py`: among the values of
one row (resp. column), keep the tiles whose goal row (resp. column) is
this line, as pairs of (position along the line, goal position along the
line), and count the reversed pairs. -/
def conflictsInLine (lineVals : List Nat) (lineIndex : Nat) (isRow : Bool) (n : Nat) : Nat :=
  let seq := lineVals.enum.filterMap (fun p =>
    if p.2 = 0 then none
    else
      let gr := (p.2 - 1) / n
      let gc := (p.2 - 1) % n
      if isRow then (if gr = lineIndex then some (p.1, gc) else none)
      else (if gc = lineIndex then some (p.1, gr) else none))
  countledPairs seq

/-- `h3_linear_conflict`: Manhattan distance plus two for each linear
conflict pair, scanning each row and each column. -/
def h3_linear_conflict (board : Board) : Nat :=
  let n := board.n
  let man := h2_manhattan board
  let rowConf := ((List.range n).map (fun r =>
    conflictsInLine ((board.tiles.drop (r * n)).take n) r true n)).sum
  let colConf := ((List.range n).map (fun c =>
    conflictsInLine ((List.range n).map (fun k => board.tiles.getD (c + k * n) 0)) c false n)).sum
  man + 2 * (rowConf + colConf)

-- Search engine (search.py) -------------------------------------------

/-- `SearchResult` from `search.py`, minus the wall-clock `runtime` field
(elapsed real time is not representable in a pure embedding);
`solution_depth` is `-1` when unsolved. -/
structure SearchResult where
  solved : Bool
  solution_depth : Int
  nodes_expanded : Nat
  path : Option (List Board)
deriving DecidableEq, Repr

/-- A frontier entry `(f, g, tie, board)` as pushed on the heap in `astar`. -/
structure Entry where
  f : Nat
  g : Nat
  tie : Nat
  board : Board
deriving DecidableEq, Repr

/-- The lexicographic order on `(f, g, tie)` used by `heapq` on the pushed
tuples (in every run the `tie` components are distinct, so the boards are
never compared). -/
def keyLE (a b : Entry) : Bool :=
  decide (a.f < b.f ∨ (a.f = b.f ∧ (a.g < b.g ∨ (a.g = b.g ∧ a.tie ≤ b.tie))))

/-- `heappop`: remove and return the least entry of the frontier. -/
def popMin : List Entry → Option (Entry × List Entry)
  | [] => none
  | e :: rest =>
    match popMin rest with
    | none => some (e, [])
    | some (m, r) => if keyLE e m then some (e, rest) else some (m, e :: r)

/-- Dictionary lookup for an association list (Python `dict.get`). -/
def alistGet {α β : Type} [DecidableEq α] (m : List (α × β)) (k : α) : Option β :=
  (m.find? (fun p => decide (p.1 = k))).map (fun p => p.2)

/-- Dictionary update-or-insert (`d[k] = v`): replaces the value of an
existing key, otherwise appends the new binding. -/
def alistSet {α β : Type} [DecidableEq α] : List (α × β) → α → β → List (α × β)
  | [], k, v => [(k, v)]
  | p :: rest, k, v => if p.1 = k then (k, v) :: rest else p :: alistSet rest k v

/-- The mutable state of one `astar` invocation: the heap, the `g_values`
map, the `parent` map, the tie counter, and `nodes_expanded`. -/
structure AState where
  heap : List Entry
  gv : List (List Nat × Nat)
  parent : List (List Nat × Option Board)
  tie : Nat
  expanded : Nat
deriving Repr

/-- The literal `1000000000000000` that `astar` passes to `dict.get` as
the default cost for an unrecorded state. -/
def SENT : Nat := 1000000000000000

/-- The per-neighbour relaxation step of `astar`: if `g + 1` improves on
the recorded cost of the neighbour (default `SENT`), record it, set the
parent, and push a fresh heap entry. -/
def relax (heuristic : Board → Nat) (g : Nat) (cur : Board) (s : AState) (nb : Board) : AState :=
  let totalG := g + 1
  if totalG < (alistGet s.gv nb.tiles).getD SENT then
    { heap := Entry.mk (totalG + heuristic nb) totalG s.tie nb :: s.heap,
      gv := alistSet s.gv nb.tiles totalG,
      parent := alistSet s.parent nb.tiles (some cur),
      tie := s.tie + 1,
      expanded := s.expanded }
  else s

/-- Path reconstruction in the goal branch of `astar`: follow parent
pointers back to the start (which maps to `None`) and produce the path
start-first.  The Python `while` loop terminates because parent pointers
strictly decrease `g`; the fuel passed by the caller covers any chain of
distinct recorded states. -/
def reconstructPath (parent : List (List Nat × Option Board)) :
    Nat → Board → List Board → List Board
  | 0, cur, acc => cur :: acc
  | fuel + 1, cur, acc =>
    match alistGet parent cur.tiles with
    | some (some p) => reconstructPath parent fuel p (cur :: acc)
    | _ => cur :: acc

/-- The main loop of `astar`, with explicit fuel (the Python loop has
none; the fuel needed is bounded, see the termination theorem):
pop the least entry, discard it if stale, count the expansion, stop on a
goal, otherwise relax every neighbour. -/
def astarLoop (heuristic : Board → Nat) : Nat → AState → Option SearchResult
  | 0, _ => none
  | fuel + 1, s =>
    match popMin s.heap with
    | none => some ⟨false, -1, s.expanded, none⟩
    | some (e, rest) =>
      if (alistGet s.gv e.board.tiles).getD SENT < e.g then
        astarLoop heuristic fuel { s with heap := rest }
      else
        let s1 : AState := { s with heap := rest, expanded := s.expanded + 1 }
        if e.board.is_goal then
          some ⟨true, (e.g : Int), s1.expanded,
            some (reconstructPath s1.parent (s1.parent.length + 1) e.board [])⟩
        else
          astarLoop heuristic fuel (e.board.neighbors.foldl (relax heuristic e.g e.board) s1)

/-- The initial search state of `astar`: the start recorded at cost `0`
with no parent, one heap entry `(h(start), 0, 0, start)`. -/
def astarInit (board : Board) (heuristic : Board → Nat) : AState :=
  { heap := [⟨heuristic board, 0, 0, board⟩],
    gv := [(board.tiles, 0)],
    parent := [(board.tiles, none)],
    tie := 1,
    expanded := 0 }

/-- Fuel sufficient for any run of the loop on an n×n board (proved
below): twice the squared number of tile permutations, plus slack. -/
def fuelBound (board : Board) : Nat :=
  2 * (Nat.factorial (board.n * board.n)) ^ 2 + 2

/-- `astar` from `search.py`: run the loop from the initial state.
`none` would mean the fuel ran out; the termination theorem shows it
never does on a valid board. -/
def astar (board : Board) (heuristic : Board → Nat) : Option SearchResult :=
  astarLoop heuristic (fuelBound board) (astarInit board heuristic)

-- Move sequences -------------------------------------------------------

/-- `ReachN b c k`: board `c` is obtained from `b` by exactly `k` legal
moves (a path in the implicit search graph generated by `neighbors`). -/
def ReachN : Board → Board → Nat → Prop
  | b, c, 0 => b = c
  | b, c, k + 1 => ∃ m ∈ b.neighbors, ReachN m c k

/-- `ReachGoalN b k`: some goal board is exactly `k` legal moves from `b`. -/
def ReachGoalN (b : Board) (k : Nat) : Prop :=
  ∃ c, ReachN b c k ∧ c.is_goal = true

-- quick sanity checks (spec §8 scenarios)
example : (Board.goal 3).tiles = [1, 2, 3, 4, 5, 6, 7, 8, 0] := by decide
example : (Board.goal 3).zero = 8 := by decide
example : (Board.goal 3).is_goal = true := by decide
example : h1_misplaced (Board.goal 3) = 0 := by decide
example : h2_manhattan (Board.goal 3) = 0 := by decide
example : h3_linear_conflict (Board.goal 3) = 0 := by decide
example : h1_misplaced ⟨3, [1,2,3,4,5,6,7,0,8], 7⟩ = 1 := by decide
example : h2_manhattan ⟨3, [1,2,3,4,5,6,7,0,8], 7⟩ = 1 := by decide
example : h2_manhattan ⟨3, [2,1,3,4,5,6,7,8,0], 8⟩ = 2 := by decide
example : h3_linear_conflict ⟨3, [2,1,3,4,5,6,7,8,0], 8⟩ = 4 := by decide
example : (Board.goal 3).is_solvable = true := by decide
example : Board.is_solvable ⟨3, [1,2,3,4,5,6,8,7,0], 8⟩ = false := by decide
example : Board.is_solvable ⟨4, [2,1,3,4,5,6,7,8,9,10,11,12,13,14,15,0], 15⟩ = false := by decide
example : (Board.goal 3).neighbors.length = 2 := by decide
example : (Board.goal 4).is_solvable = true := by decide
example : (Board.goal 3).Valid := by decide

-- ## Indexed sums: the common shape of the heuristics ------------------

/-- Sum of `f index value` over a list, indexing from `i`. -/
def sumIdx (f : Nat → Nat → Nat) : Nat → List Nat → Nat
  | _, [] => 0
  | i, v :: rest => f i v + sumIdx f (i + 1) rest

theorem sum_map_enumFrom (f : Nat → Nat → Nat) (l : List Nat) :
    ∀ i, ((List.enumFrom i l).map (fun p => f p.1 p.2)).sum = sumIdx f i l := by
  induction l with
  | nil => intro i; rfl
  | cons v rest ih =>
    intro i
    simp [List.enumFrom_cons, sumIdx, ih (i + 1)]

theorem length_filter_enumFrom (p : Nat × Nat → Bool) (l : List Nat) :
    ∀ i, ((List.enumFrom i l).filter p).length =
      sumIdx (fun j v => if p (j, v) then 1 else 0) i l := by
  induction l with
  | nil => intro i; rfl
  | cons v rest ih =>
    intro i
    by_cases h : p (i, v) <;>
      simp [List.enumFrom_cons, List.filter_cons, h, sumIdx, ih (i + 1), Nat.add_comm]

theorem h1_eq_sumIdx (b : Board) :
    h1_misplaced b =
      sumIdx (fun i v => if v ≠ 0 ∧ i ≠ v - 1 then 1 else 0) 0 b.tiles := by
  have h := length_filter_enumFrom
    (fun p => decide (p.2 ≠ 0 ∧ p.1 ≠ p.2 - 1)) b.tiles 0
  simpa [h1_misplaced] using h

theorem h2_eq_sumIdx (b : Board) :
    h2_manhattan b =
      sumIdx (fun i v => if v = 0 then 0 else manDist b.n i v) 0 b.tiles := by
  have h := sum_map_enumFrom
    (fun i v => if v = 0 then 0 else manDist b.n i v) b.tiles 0
  simpa [h2_manhattan] using h

theorem sumIdx_le (f g : Nat → Nat → Nat) (hfg : ∀ i v, f i v ≤ g i v) (l : List Nat) :
    ∀ i, sumIdx f i l ≤ sumIdx g i l := by
  induction l with
  | nil => intro i; exact Nat.le_refl 0
  | cons v rest ih =>
    intro i
    exact Nat.add_le_add (hfg i v) (ih (i + 1))

theorem sumIdx_eq_zero_iff (f : Nat → Nat → Nat) (l : List Nat) :
    ∀ i, (sumIdx f i l = 0 ↔ ∀ j, j < l.length → f (i + j) (l.getD j 0) = 0) := by
  induction l with
  | nil => intro i; simp [sumIdx]
  | cons v rest ih =>
    intro i
    simp only [sumIdx, Nat.add_eq_zero, ih (i + 1)]
    constructor
    · rintro ⟨h0, hrest⟩ j hj
      match j with
      | 0 => simpa using h0
      | j' + 1 =>
        have := hrest j' (by simpa using hj)
        simpa [Nat.add_comm, Nat.add_assoc, Nat.add_left_comm] using this
    · intro h
      refine ⟨by simpa using h 0 (by simp), fun j hj => ?_⟩
      have := h (j + 1) (by simpa using hj)
      simpa [Nat.add_comm, Nat.add_assoc, Nat.add_left_comm] using this

/-- A tile away from its goal index has Manhattan distance at least 1. -/
theorem manDist_pos (n i v : Nat) (hne : i ≠ v - 1) : 1 ≤ manDist n i v := by
  rcases Nat.eq_zero_or_pos (manDist n i v) with h0 | h1
  · exfalso
    have d1 : Nat.dist (i / n) ((v - 1) / n) = 0 := by
      have := h0; simp [manDist] at this; omega
    have d2 : Nat.dist (i % n) ((v - 1) % n) = 0 := by
      have := h0; simp [manDist] at this; omega
    have e1 : i / n = (v - 1) / n := Nat.eq_of_dist_eq_zero d1
    have e2 : i % n = (v - 1) % n := Nat.eq_of_dist_eq_zero d2
    have : i = v - 1 := by
      rw [← Nat.div_add_mod i n, ← Nat.div_add_mod (v - 1) n, e1, e2]
    exact hne this
  · exact h1

/-- C3, first half: each misplaced tile contributes at least one to the
Manhattan sum. -/
theorem h1_le_h2 (b : Board) : h1_misplaced b ≤ h2_manhattan b := by
  rw [h1_eq_sumIdx, h2_eq_sumIdx]
  apply sumIdx_le
  intro i v
  by_cases hv : v = 0
  · simp [hv]
  · by_cases hi : i = v - 1
    · simp [hv, hi]
    · simpa [hv, hi] using manDist_pos b.n i v hi

/-- C3, second half: the linear-conflict value adds a non-negative term
to the Manhattan sum. -/
theorem h2_le_h3 (b : Board) : h2_manhattan b ≤ h3_linear_conflict b := by
  simp only [h3_linear_conflict]
  exact Nat.le_add_right _ _

/-- C3: the domination chain `h1 ≤ h2 ≤ h3` on every valid board. -/
theorem claim_C3_domination (b : Board) (_hb : b.Valid) :
    h1_misplaced b ≤ h2_manhattan b ∧ h2_manhattan b ≤ h3_linear_conflict b :=
  ⟨h1_le_h2 b, h2_le_h3 b⟩

-- ## C4: each heuristic vanishes exactly on the goal ------------------

theorem goalTiles_length (n : Nat) (hn : 1 ≤ n) : (goalTiles n).length = n * n := by
  have : 1 ≤ n * n := Nat.mul_le_mul hn hn
  simp [goalTiles, List.length_range']
  omega

theorem goalTiles_getElem (n j : Nat) (hj : j < (goalTiles n).length) :
    (goalTiles n)[j] = if j < n * n - 1 then j + 1 else 0 := by
  unfold goalTiles at hj ⊢
  rw [List.getElem_append]
  split
  next h =>
    rw [List.getElem_range']
    simp only [List.length_range'] at h
    rw [if_pos h]
    omega
  next h =>
    simp only [List.length_range'] at h
    rw [if_neg h]
    have hidx : j - (n * n - 1) = 0 := by
      simp [List.length_range', List.length_append] at hj
      omega
    simp [hidx]

theorem goalTiles_getD (n j : Nat) (hj : j < (goalTiles n).length) :
    (goalTiles n).getD j 0 = if j < n * n - 1 then j + 1 else 0 := by
  rw [List.getD_eq_getElem _ _ hj]
  exact goalTiles_getElem n j hj

/-- A sequence whose second components are non-decreasing has no
reversed pairs. -/
theorem countledPairs_eq_zero (seq : List (Nat × Nat))
    (h : seq.Pairwise (fun x y => x.2 ≤ y.2)) : countledPairs seq = 0 := by
  induction seq with
  | nil => rfl
  | cons a rest ih =>
    rw [List.pairwise_cons] at h
    simp only [countledPairs]
    rw [List.countP_eq_zero.mpr, ih h.2]
    intro x hx
    have := h.1 x hx
    simp
    omega

theorem pairwise_enumFrom_of_pairwise (R : Nat → Nat → Prop) (l : List Nat) (h : l.Pairwise R) :
    ∀ i, (List.enumFrom i l).Pairwise (fun p q => R p.2 q.2) := by
  induction l with
  | nil => intro i; simp
  | cons a tl ih =>
    intro i
    rw [List.pairwise_cons] at h
    rw [List.enumFrom_cons, List.pairwise_cons]
    refine ⟨?_, ih h.2 (i + 1)⟩
    rintro ⟨j, y⟩ hq
    have hm := List.mem_enumFrom hq
    have : y ∈ tl := by
      rw [hm.2.2]
      exact List.getElem_mem _
    exact h.1 y this

/-- Two values below `n*n` with the same goal line and in increasing
order have their goal coordinates along that line in increasing order. -/
theorem conflictsInLine_eq_zero (lineVals : List Nat) (L : Nat) (isRow : Bool) (n : Nat)
    (hmono : lineVals.Pairwise (fun x y => x ≠ 0 → y ≠ 0 → x < y)) :
    conflictsInLine lineVals L isRow n = 0 := by
  apply countledPairs_eq_zero
  show (List.filterMap _ (List.enumFrom 0 lineVals)).Pairwise _
  rw [List.pairwise_filterMap]
  have hpe := pairwise_enumFrom_of_pairwise _ lineVals hmono 0
  refine hpe.imp ?_
  rintro ⟨i, x⟩ ⟨j, y⟩ hxy p hp q hq
  by_cases hx : x = 0
  · simp [hx] at hp
  by_cases hy : y = 0
  · simp [hy] at hq
  have hlt : x < y := hxy hx hy
  cases isRow with
  | true =>
    by_cases hgx : (x - 1) / n = L
    · by_cases hgy : (y - 1) / n = L
      · simp [hx, hgx, hy, hgy] at hp hq
        rw [← hp, ← hq]
        simp only
        -- (x-1) % n ≤ (y-1) % n from same div and x-1 < y-1
        have e1 : n * ((x - 1) / n) + (x - 1) % n = x - 1 := Nat.div_add_mod _ n
        have e2 : n * ((y - 1) / n) + (y - 1) % n = y - 1 := Nat.div_add_mod _ n
        rw [hgx] at e1
        rw [hgy] at e2
        generalize n * L = t at e1 e2
        omega
      · simp [hx, hgy] at hq
    · simp [hx, hgx] at hp
  | false =>
    by_cases hgx : (x - 1) % n = L
    · by_cases hgy : (y - 1) % n = L
      · simp [hx, hgx, hy, hgy] at hp hq
        rw [← hp, ← hq]
        simp only
        have e1 : n * ((x - 1) / n) + (x - 1) % n = x - 1 := Nat.div_add_mod _ n
        have e2 : n * ((y - 1) / n) + (y - 1) % n = y - 1 := Nat.div_add_mod _ n
        rw [hgx] at e1
        rw [hgy] at e2
        -- same mod, x-1 < y-1, so divs increase (weakly suffices)
        rcases Nat.eq_zero_or_pos n with hn | hn
        · subst hn; simp at e1 e2; omega
        · by_contra hcon
          push_neg at hcon
          have : n * ((y - 1) / n) < n * ((x - 1) / n) :=
            (Nat.mul_lt_mul_left hn).mpr hcon
          omega
      · simp [hy, hgy] at hq
    · simp [hx, hgx] at hp

/-- The goal tiles are increasing on their non-blank entries. -/
theorem goalTiles_pairwise (n : Nat) :
    (goalTiles n).Pairwise (fun x y => x ≠ 0 → y ≠ 0 → x < y) := by
  unfold goalTiles
  rw [List.pairwise_append]
  refine ⟨(List.pairwise_lt_range' 1 (n * n - 1)).imp ?_, by simp, ?_⟩
  · intro a b hab _ _
    exact hab
  · intro x hx y hy
    simp only [List.mem_singleton] at hy
    intro _ hy0
    exact absurd hy hy0

theorem is_goal_iff (b : Board) : b.is_goal = true ↔ b.tiles = goalTiles b.n := by
  simp [Board.is_goal]

theorem h1_goalTiles (b : Board) (ht : b.tiles = goalTiles b.n) : h1_misplaced b = 0 := by
  rw [h1_eq_sumIdx, sumIdx_eq_zero_iff]
  intro j hj
  rw [ht] at hj ⊢
  rw [goalTiles_getD b.n j hj]
  by_cases hcase : j < b.n * b.n - 1
  · simp [hcase]
  · simp [hcase]

theorem h2_goalTiles (b : Board) (ht : b.tiles = goalTiles b.n) : h2_manhattan b = 0 := by
  rw [h2_eq_sumIdx, sumIdx_eq_zero_iff]
  intro j hj
  rw [ht] at hj ⊢
  rw [goalTiles_getD b.n j hj]
  by_cases hcase : j < b.n * b.n - 1
  · simp only [if_pos hcase]
    rw [if_neg (by omega)]
    simp [manDist, Nat.dist_self]
  · simp [hcase]

theorem h3_goalTiles (b : Board) (hn : 1 ≤ b.n) (ht : b.tiles = goalTiles b.n) :
    h3_linear_conflict b = 0 := by
  have h2 := h2_goalTiles b ht
  simp only [h3_linear_conflict, h2, Nat.zero_add]
  have hrow : ((List.range b.n).map (fun r =>
      conflictsInLine ((b.tiles.drop (r * b.n)).take b.n) r true b.n)).sum = 0 := by
    apply List.sum_eq_zero
    intro x hx
    rw [List.mem_map] at hx
    obtain ⟨r, _, rfl⟩ := hx
    apply conflictsInLine_eq_zero
    have hsub : ((b.tiles.drop (r * b.n)).take b.n).Sublist b.tiles :=
      (List.take_sublist _ _).trans (List.drop_sublist _ _)
    refine List.Pairwise.sublist hsub ?_
    rw [ht]
    exact goalTiles_pairwise b.n
  have hcol : ((List.range b.n).map (fun c =>
      conflictsInLine ((List.range b.n).map (fun k => b.tiles.getD (c + k * b.n) 0))
        c false b.n)).sum = 0 := by
    apply List.sum_eq_zero
    intro x hx
    rw [List.mem_map] at hx
    obtain ⟨c, hc, rfl⟩ := hx
    rw [List.mem_range] at hc
    apply conflictsInLine_eq_zero
    rw [ht, List.pairwise_map]
    have hglen : (goalTiles b.n).length = b.n * b.n := goalTiles_length b.n hn
    have hpw := List.pairwise_lt_range b.n
    refine List.Pairwise.imp_of_mem ?_ hpw
    intro k k' hk hk' hkk'
    rw [List.mem_range] at hk hk'
    intro hx0 hy0
    have hb1 : c + k * b.n < b.n * b.n := by
      have h1 : k * b.n ≤ (b.n - 1) * b.n :=
        Nat.mul_le_mul_right b.n (by omega)
      have h2 : b.n + (b.n - 1) * b.n = b.n * b.n := by
        have hn' : b.n - 1 + 1 = b.n := by omega
        calc b.n + (b.n - 1) * b.n = (b.n - 1 + 1) * b.n := by ring
        _ = b.n * b.n := by rw [hn']
      omega
    have hb2 : c + k' * b.n < b.n * b.n := by
      have h1 : k' * b.n ≤ (b.n - 1) * b.n :=
        Nat.mul_le_mul_right b.n (by omega)
      have h2 : b.n + (b.n - 1) * b.n = b.n * b.n := by
        have hn' : b.n - 1 + 1 = b.n := by omega
        calc b.n + (b.n - 1) * b.n = (b.n - 1 + 1) * b.n := by ring
        _ = b.n * b.n := by rw [hn']
      omega
    rw [goalTiles_getD b.n _ (by omega)] at hx0 ⊢
    rw [goalTiles_getD b.n _ (by omega)] at hy0 ⊢
    have hkk : c + k * b.n < c + k' * b.n := by
      have : k * b.n < k' * b.n := (Nat.mul_lt_mul_right (show 0 < b.n by omega)).mpr hkk'
      omega
    by_cases hc2 : c + k' * b.n < b.n * b.n - 1
    · rw [if_pos hc2] at hy0 ⊢
      rw [if_pos (by omega)] at hx0 ⊢
      omega
    · rw [if_neg hc2] at hy0
      exact absurd rfl hy0
  rw [hrow, hcol]

/-- If every non-blank tile of a valid board sits at its goal index, the
tiles are exactly the goal tiles. -/
theorem tiles_eq_goalTiles_of_fixed (b : Board) (hb : b.Valid)
    (H : ∀ j, j < b.tiles.length → b.tiles.getD j 0 ≠ 0 → b.tiles.getD j 0 = j + 1) :
    b.tiles = goalTiles b.n := by
  obtain ⟨hn2, hperm, _⟩ := hb
  have hlen : b.tiles.length = b.n * b.n := by
    simpa using hperm.length_eq
  have hval : ∀ j, j < b.tiles.length → b.tiles.getD j 0 < b.n * b.n := by
    intro j hj
    rw [List.getD_eq_getElem _ _ hj]
    have : b.tiles[j] ∈ List.range (b.n * b.n) := hperm.mem_iff.mp (List.getElem_mem hj)
    simpa [List.mem_range] using this
  have key : ∀ j, j < b.tiles.length → j + 1 < b.n * b.n → b.tiles.getD j 0 = j + 1 := by
    intro j hj hj1
    by_cases h0 : b.tiles.getD j 0 = 0
    · exfalso
      have hmem : j + 1 ∈ b.tiles := hperm.mem_iff.mpr (by simp [List.mem_range]; omega)
      rw [List.mem_iff_getElem] at hmem
      obtain ⟨j', hj', hv⟩ := hmem
      have hv' : b.tiles.getD j' 0 = j + 1 := by
        rw [List.getD_eq_getElem _ _ hj']; exact hv
      have hne : b.tiles.getD j' 0 ≠ 0 := by rw [hv']; omega
      have heq := H j' hj' hne
      rw [hv'] at heq
      have hjj : j' = j := by omega
      subst hjj
      rw [hv'] at h0
      omega
    · exact H j hj h0
  apply List.ext_getElem
  · rw [hlen, goalTiles_length b.n (by omega)]
  · intro j h1 h2
    rw [goalTiles_getElem, ← List.getD_eq_getElem b.tiles 0 h1]
    by_cases hcase : j < b.n * b.n - 1
    · rw [if_pos hcase]
      exact key j h1 (by omega)
    · rw [if_neg hcase]
      by_contra hne
      have := H j h1 hne
      have := hval j h1
      rw [hlen] at h1
      omega

/-- C4: each heuristic is zero exactly on the goal state (and, being
`Nat`-valued, is non-negative by type). -/
theorem claim_C4_zero_iff_goal (b : Board) (hb : b.Valid) :
    (h1_misplaced b = 0 ↔ b.is_goal = true) ∧
      (h2_manhattan b = 0 ↔ b.is_goal = true) ∧
      (h3_linear_conflict b = 0 ↔ b.is_goal = true) := by
  have hn1 : 1 ≤ b.n := by have := hb.1; omega
  refine ⟨⟨fun h1z => ?_, fun hg => h1_goalTiles b ((is_goal_iff b).mp hg)⟩,
    ⟨fun h2z => ?_, fun hg => h2_goalTiles b ((is_goal_iff b).mp hg)⟩,
    ⟨fun h3z => ?_, fun hg => h3_goalTiles b hn1 ((is_goal_iff b).mp hg)⟩⟩
  · rw [is_goal_iff]
    apply tiles_eq_goalTiles_of_fixed b hb
    intro j hj hne
    rw [h1_eq_sumIdx, sumIdx_eq_zero_iff] at h1z
    have hterm := h1z j hj
    simp only [Nat.zero_add] at hterm
    rw [ite_eq_right_iff] at hterm
    by_cases hji : j = b.tiles.getD j 0 - 1
    · omega
    · exact absurd (hterm ⟨hne, hji⟩) Nat.one_ne_zero
  · rw [is_goal_iff]
    apply tiles_eq_goalTiles_of_fixed b hb
    intro j hj hne
    rw [h2_eq_sumIdx, sumIdx_eq_zero_iff] at h2z
    have hterm := h2z j hj
    simp only [Nat.zero_add, if_neg hne] at hterm
    have hji : j = b.tiles.getD j 0 - 1 := by
      by_contra hji
      have := manDist_pos b.n j (b.tiles.getD j 0) hji
      omega
    omega
  · have h2z : h2_manhattan b = 0 :=
      Nat.le_antisymm (h3z ▸ h2_le_h3 b) (Nat.zero_le _)
    rw [is_goal_iff]
    apply tiles_eq_goalTiles_of_fixed b hb
    intro j hj hne
    rw [h2_eq_sumIdx, sumIdx_eq_zero_iff] at h2z
    have hterm := h2z j hj
    simp only [Nat.zero_add, if_neg hne] at hterm
    have hji : j = b.tiles.getD j 0 - 1 := by
      by_contra hji
      have := manDist_pos b.n j (b.tiles.getD j 0) hji
      omega
    omega

/-- Witness for C4 at the 3×3 goal board. -/
theorem claim_C4_zero_iff_goal_witness :
    (h1_misplaced (Board.goal 3) = 0 ↔ (Board.goal 3).is_goal = true) ∧
      (h2_manhattan (Board.goal 3) = 0 ↔ (Board.goal 3).is_goal = true) ∧
      (h3_linear_conflict (Board.goal 3) = 0 ↔ (Board.goal 3).is_goal = true) :=
  claim_C4_zero_iff_goal _ (by decide)

-- ## C5: the solvability rule ------------------------------------------

/-- The number of positions `j` that form an inversion with position `i`:
`i < j` and `tiles[i] > tiles[j]`. -/
def invPairsAt (l : List Nat) (i : Nat) : Nat :=
  ((List.range l.length).filter
    (fun j => decide (i < j ∧ l.getD j 0 < l.getD i 0))).length

/-- The inversion count the way the spec words it: the number of pairs
`(i, j)` with `i < j` and `tiles[i] > tiles[j]`. -/
def inversionsSpec (l : List Nat) : Nat :=
  ((List.range l.length).map (invPairsAt l)).sum

/-- The spec's parity rule, defined from the spec's own words: inversion
count over the tile sequence with the blank removed; odd `n`: solvable
iff inversions even; even `n`: solvable iff inversions plus the blank's
1-based row from the bottom (`n - zero_row`) is odd. -/
def solvableSpec (b : Board) : Bool :=
  let arr := b.tiles.filter (fun x => decide (x ≠ 0))
  let inv := inversionsSpec arr
  if b.n % 2 = 1 then decide (inv % 2 = 0)
  else decide ((inv + (b.n - b.zero / b.n)) % 2 = 1)

theorem countP_positions (p : Nat → Bool) (l : List Nat) :
    ((List.range l.length).filter (fun j => p (l.getD j 0))).length = l.countP p := by
  induction l with
  | nil => rfl
  | cons a l ih =>
    have hmap : List.filter ((fun j => p ((a :: l).getD j 0)) ∘ Nat.succ)
          (List.range l.length)
        = List.filter (fun j => p (l.getD j 0)) (List.range l.length) :=
      List.filter_congr (fun x _ => rfl)
    rw [List.length_cons, List.range_succ_eq_map, List.filter_cons, List.filter_map, hmap]
    by_cases hpa : p a
    · rw [if_pos (show (fun j => p ((a :: l).getD j 0)) 0 = true from hpa)]
      rw [List.length_cons, List.length_map, ih, List.countP_cons, if_pos hpa]
    · rw [if_neg (show ¬(fun j => p ((a :: l).getD j 0)) 0 = true from hpa)]
      rw [List.length_map, ih, List.countP_cons, if_neg hpa, Nat.add_zero]

theorem invPairsAt_cons_zero (a : Nat) (l : List Nat) :
    invPairsAt (a :: l) 0 = l.countP (fun x => decide (x < a)) := by
  unfold invPairsAt
  rw [List.length_cons, List.range_succ_eq_map, List.filter_cons, if_neg (by simp),
    List.filter_map]
  have hcongr : ∀ x ∈ List.range l.length,
      ((fun j => decide ((0:Nat) < j ∧ (a :: l).getD j 0 < (a :: l).getD 0 0)) ∘ Nat.succ) x
      = (fun j => decide (l.getD j 0 < a)) x := by
    intro x _
    simp
  rw [List.filter_congr hcongr, List.length_map]
  exact countP_positions (fun x => decide (x < a)) l

theorem invPairsAt_cons_succ (a : Nat) (l : List Nat) (i : Nat) :
    invPairsAt (a :: l) (i + 1) = invPairsAt l i := by
  unfold invPairsAt
  rw [List.length_cons, List.range_succ_eq_map, List.filter_cons, if_neg (by simp),
    List.filter_map]
  have hcongr : ∀ x ∈ List.range l.length,
      ((fun j => decide (i + 1 < j ∧ (a :: l).getD j 0 < (a :: l).getD (i + 1) 0)) ∘ Nat.succ) x
      = (fun j => decide (i < j ∧ l.getD j 0 < l.getD i 0)) x := by
    intro x _
    simp [Nat.succ_lt_succ_iff]
  rw [List.filter_congr hcongr, List.length_map]

theorem inversions_eq_spec (l : List Nat) : inversions l = inversionsSpec l := by
  induction l with
  | nil => rfl
  | cons a l ih =>
    show l.countP (fun x => decide (x < a)) + inversions l = _
    rw [inversionsSpec, List.length_cons, List.range_succ_eq_map, List.map_cons,
      List.sum_cons, List.map_map, invPairsAt_cons_zero]
    have hmap : List.map (invPairsAt (a :: l) ∘ Nat.succ) (List.range l.length)
        = List.map (invPairsAt l) (List.range l.length) :=
      List.map_congr_left (fun x _ => invPairsAt_cons_succ a l x)
    rw [hmap, ih, inversionsSpec]

/-- The code's `is_solvable` computes exactly the spec's parity rule. -/
theorem is_solvable_eq_spec (b : Board) : b.is_solvable = solvableSpec b := by
  simp only [Board.is_solvable, solvableSpec, inversions_eq_spec]

/-- C5: on every valid board `is_solvable` equals the spec's parity rule,
and the board one adjacent swap away from the 3×3 goal is unsolvable. -/
theorem claim_C5_solvability_rule (b : Board) (_hb : b.Valid) :
    b.is_solvable = solvableSpec b ∧
      Board.from_rows [[1,2,3],[4,5,6],[8,7,0]] = .ok ⟨3, [1,2,3,4,5,6,8,7,0], 8⟩ ∧
      Board.is_solvable ⟨3, [1,2,3,4,5,6,8,7,0], 8⟩ = false :=
  ⟨is_solvable_eq_spec b, rfl, by decide⟩

/-- Witness for C5 at the 3×3 goal board. -/
theorem claim_C5_solvability_rule_witness :
    (Board.goal 3).is_solvable = solvableSpec (Board.goal 3) ∧
      Board.from_rows [[1,2,3],[4,5,6],[8,7,0]] = .ok ⟨3, [1,2,3,4,5,6,8,7,0], 8⟩ ∧
      Board.is_solvable ⟨3, [1,2,3,4,5,6,8,7,0], 8⟩ = false :=
  claim_C5_solvability_rule _ (by decide)

-- ## C6: solvability is invariant under legal moves --------------------

/-- The cross-term of `inversions` over a concatenation: for each element
of `X`, the number of smaller elements of `Y`. -/
def crossLT (X Y : List Nat) : Nat :=
  (X.map (fun a => Y.countP (fun x => decide (x < a)))).sum

theorem inversions_append (X Y : List Nat) :
    inversions (X ++ Y) = inversions X + inversions Y + crossLT X Y := by
  induction X with
  | nil => simp [inversions, crossLT]
  | cons a X ih =>
    have h1 : inversions ((a :: X) ++ Y)
        = (X ++ Y).countP (fun x => decide (x < a)) + inversions (X ++ Y) := rfl
    have hc : crossLT (a :: X) Y = Y.countP (fun x => decide (x < a)) + crossLT X Y := rfl
    have h2 : inversions (a :: X) = X.countP (fun x => decide (x < a)) + inversions X := rfl
    rw [h1, List.countP_append, ih, hc, h2]
    omega

theorem crossLT_append_right (X Y Z : List Nat) :
    crossLT X (Y ++ Z) = crossLT X Y + crossLT X Z := by
  unfold crossLT
  have hcg : X.map (fun a => (Y ++ Z).countP (fun x => decide (x < a)))
      = X.map (fun a =>
        Y.countP (fun x => decide (x < a)) + Z.countP (fun x => decide (x < a))) :=
    List.map_congr_left (fun a _ => List.countP_append _ _ _)
  rw [hcg, List.sum_map_add]

theorem crossLT_singleton (X : List Nat) (y : Nat) :
    crossLT X [y] = X.countP (fun a => decide (y < a)) := by
  induction X with
  | nil => rfl
  | cons a X ih =>
    have h1 : crossLT (a :: X) [y]
        = [y].countP (fun x => decide (x < a)) + crossLT X [y] := rfl
    rw [h1, ih]
    simp only [List.countP_cons, List.countP_nil]
    omega

theorem crossLT_cons_right (X : List Nat) (y : Nat) (Z : List Nat) :
    crossLT X (y :: Z) = X.countP (fun a => decide (y < a)) + crossLT X Z := by
  rw [show y :: Z = [y] ++ Z from rfl, crossLT_append_right, crossLT_singleton]

/-- The exact inversion-count identity for moving one element across a
block: `inv (A ++ M ++ t :: C) + #{x ∈ M | x < t}
      = inv (A ++ t :: M ++ C) + #{x ∈ M | x > t}`. -/
theorem inversions_move_across (A M C : List Nat) (t : Nat) :
    inversions (A ++ (M ++ t :: C)) + M.countP (fun x => decide (x < t))
    = inversions (A ++ (t :: (M ++ C))) + M.countP (fun x => decide (t < x)) := by
  have e1 : inversions (M ++ t :: C)
      = inversions M + inversions (t :: C) + crossLT M (t :: C) :=
    inversions_append M (t :: C)
  have e2 : inversions (t :: C) = C.countP (fun x => decide (x < t)) + inversions C := rfl
  have e3 : crossLT M (t :: C) = M.countP (fun a => decide (t < a)) + crossLT M C :=
    crossLT_cons_right M t C
  have e4 : inversions (t :: (M ++ C))
      = (M ++ C).countP (fun x => decide (x < t)) + inversions (M ++ C) := rfl
  have e5 : inversions (M ++ C) = inversions M + inversions C + crossLT M C :=
    inversions_append M C
  have e6 : crossLT A (M ++ t :: C)
      = crossLT A M + (A.countP (fun a => decide (t < a)) + crossLT A C) := by
    rw [crossLT_append_right, crossLT_cons_right]
  have e7 : crossLT A (t :: (M ++ C))
      = A.countP (fun a => decide (t < a)) + (crossLT A M + crossLT A C) := by
    rw [crossLT_cons_right, crossLT_append_right]
  rw [inversions_append A (M ++ t :: C), inversions_append A (t :: (M ++ C)),
    e1, e2, e3, e4, e5, e6, e7, List.countP_append]
  omega

theorem countP_lt_add_countP_gt (M : List Nat) (t : Nat) (h : t ∉ M) :
    M.countP (fun x => decide (x < t)) + M.countP (fun x => decide (t < x)) = M.length := by
  induction M with
  | nil => rfl
  | cons a M ih =>
    have hat : a ≠ t := fun hat => h (hat ▸ List.mem_cons_self a M)
    have ih' := ih (fun hm => h (List.mem_cons_of_mem a hm))
    simp only [List.countP_cons, List.length_cons]
    by_cases hlt : a < t
    · rw [if_pos (by simpa using hlt), if_neg (by simp; omega)]
      omega
    · rw [if_neg (by simpa using hlt), if_pos (by simp; omega)]
      omega

theorem Board.Valid.tiles_length {b : Board} (hb : b.Valid) : b.tiles.length = b.n * b.n := by
  simpa using hb.2.1.length_eq

theorem Board.Valid.nodup {b : Board} (hb : b.Valid) : b.tiles.Nodup :=
  hb.2.1.symm.nodup (List.nodup_range _)

theorem Board.Valid.zero_mem {b : Board} (hb : b.Valid) : 0 ∈ b.tiles := by
  have hn := hb.1
  refine hb.2.1.mem_iff.mpr ?_
  rw [List.mem_range]
  have : 2 * 2 ≤ b.n * b.n := Nat.mul_le_mul hn hn
  omega

theorem Board.Valid.zero_lt {b : Board} (hb : b.Valid) : b.zero < b.tiles.length := by
  rw [hb.2.2]
  exact List.findIdx_lt_length_of_exists ⟨0, hb.zero_mem, by simp⟩

theorem Board.Valid.getD_zero {b : Board} (hb : b.Valid) : b.tiles.getD b.zero 0 = 0 := by
  have hlt := hb.zero_lt
  rw [hb.2.2] at hlt ⊢
  rw [List.getD_eq_getElem _ _ hlt]
  have := @List.findIdx_getElem _ (fun x => decide (x = 0)) b.tiles hlt
  simpa using this

theorem Board.Valid.zero_unique {b : Board} (hb : b.Valid) (k : Nat)
    (hk : k < b.tiles.length) (h0 : b.tiles.getD k 0 = 0) : k = b.zero := by
  have h1 := hb.getD_zero
  have hz := hb.zero_lt
  rw [List.getD_eq_getElem _ _ hk] at h0
  rw [List.getD_eq_getElem _ _ hz] at h1
  exact (hb.nodup.getElem_inj_iff).mp (h0.trans h1.symm)

/-- Splitting a list at two positions `i < j`. -/
theorem list_decomp (l : List Nat) (i j : Nat) (hij : i < j) (hj : j < l.length) :
    l = l.take i ++ l.getD i 0 ::
      ((l.drop (i + 1)).take (j - i - 1) ++ l.getD j 0 :: l.drop (j + 1)) := by
  have hi : i < l.length := lt_trans hij hj
  conv_lhs => rw [← List.take_append_drop i l]
  congr 1
  rw [List.drop_eq_getElem_cons hi, ← List.getD_eq_getElem l 0 hi]
  congr 1
  conv_lhs => rw [← List.take_append_drop (j - i - 1) (l.drop (i + 1))]
  congr 1
  rw [List.drop_drop]
  have hji : (i + 1) + (j - i - 1) = j := by omega
  rw [hji, List.drop_eq_getElem_cons hj, ← List.getD_eq_getElem l 0 hj]

/-- The same split for the swapped list. -/
theorem swapIdx_decomp (l : List Nat) (i j : Nat) (hij : i < j) (hj : j < l.length) :
    swapIdx l i j = l.take i ++ l.getD j 0 ::
      ((l.drop (i + 1)).take (j - i - 1) ++ l.getD i 0 :: l.drop (j + 1)) := by
  have hi : i < l.length := lt_trans hij hj
  have hlt : (List.take i l).length = i := by rw [List.length_take]; omega
  have hset1 : l.set i (l.getD j 0) = List.take i l ++ l.getD j 0 :: List.drop (i + 1) l := by
    rw [List.set_eq_take_append_cons_drop, if_pos hi]
  have hset2 : (List.drop (i + 1) l).set (j - i - 1) (l.getD i 0)
      = List.take (j - i - 1) (List.drop (i + 1) l) ++ l.getD i 0 :: List.drop (j + 1) l := by
    rw [List.set_eq_take_append_cons_drop,
      if_pos (show j - i - 1 < (List.drop (i + 1) l).length by rw [List.length_drop]; omega),
      List.drop_drop]
    have hidx : i + 1 + (j - i - 1 + 1) = j + 1 := by omega
    rw [hidx]
  unfold swapIdx
  rw [hset1, List.set_append,
    if_neg (show ¬ j < (List.take i l).length by rw [List.length_take]; omega), hlt]
  have hj1 : j - i = (j - i - 1) + 1 := by omega
  rw [hj1, List.set_cons_succ, hset2]
  simp only [Nat.add_sub_cancel]

theorem middle_length (l : List Nat) (i j : Nat) (_hij : i < j) (hj : j < l.length) :
    ((l.drop (i + 1)).take (j - i - 1)).length = j - i - 1 := by
  rw [List.length_take, List.length_drop]
  omega

theorem mem_middle (l : List Nat) (i j : Nat) (hij : i < j) (hj : j < l.length)
    (x : Nat) (hx : x ∈ (l.drop (i + 1)).take (j - i - 1)) :
    ∃ k, i < k ∧ k < j ∧ k < l.length ∧ l.getD k 0 = x := by
  rw [List.mem_iff_getElem] at hx
  obtain ⟨m, hm, hval⟩ := hx
  have hmlt : m < j - i - 1 := by
    have := middle_length l i j hij hj
    omega
  refine ⟨i + 1 + m, by omega, by omega, by omega, ?_⟩
  rw [List.getElem_take, List.getElem_drop] at hval
  rw [List.getD_eq_getElem _ _ (show i + 1 + m < l.length by omega)]
  exact hval

/-- The inversion identity for the filtered tile list across one swap of
the blank (at the lower index `i`) with a tile (at index `j`). -/
theorem solvable_filter_swap (A M C : List Nat) (t : Nat) (ht : t ≠ 0) (h0M : 0 ∉ M) :
    inversions ((A ++ 0 :: (M ++ t :: C)).filter (fun x => decide (x ≠ 0)))
      + M.countP (fun x => decide (x < t))
    = inversions ((A ++ t :: (M ++ 0 :: C)).filter (fun x => decide (x ≠ 0)))
      + M.countP (fun x => decide (t < x)) := by
  have hfM : M.filter (fun x => decide (x ≠ 0)) = M :=
    List.filter_eq_self.mpr (fun a ha => by
      simp only [decide_eq_true_eq]
      intro h
      exact h0M (h ▸ ha))
  rw [List.filter_append, List.filter_cons, if_neg (by simp),
    List.filter_append, hfM, List.filter_cons, if_pos (by simp [ht]),
    List.filter_append, List.filter_cons, if_pos (by simp [ht]),
    List.filter_append, hfM, List.filter_cons, if_neg (by simp)]
  exact inversions_move_across _ M _ t

/-- For a board whose blank is at index `i < j`, the filtered inversion
counts of the list and its `(i, j)` swap differ by opposite parts of the
`j - i - 1` elements strictly between them. -/
theorem invFilter_swap_blank (l : List Nat) (hnd : l.Nodup) (i j : Nat) (hij : i < j)
    (hj : j < l.length) (h0 : l.getD i 0 = 0)
    (hnz : ∀ k, k < l.length → l.getD k 0 = 0 → k = i) :
    ∃ P Q, P + Q = j - i - 1 ∧
      inversions (l.filter (fun x => decide (x ≠ 0))) + P
        = inversions ((swapIdx l i j).filter (fun x => decide (x ≠ 0))) + Q := by
  have hdec := list_decomp l i j hij hj
  have hswap := swapIdx_decomp l i j hij hj
  rw [h0] at hdec hswap
  have ht : l.getD j 0 ≠ 0 := by
    intro h
    have := hnz j hj h
    omega
  have h0M : 0 ∉ (l.drop (i + 1)).take (j - i - 1) := by
    intro hm
    obtain ⟨k, hik, hkj, hkl, hk0⟩ := mem_middle l i j hij hj 0 hm
    have := hnz k hkl hk0
    omega
  have htM : l.getD j 0 ∉ (l.drop (i + 1)).take (j - i - 1) := by
    intro hm
    obtain ⟨k, hik, hkj, hkl, hkt⟩ := mem_middle l i j hij hj _ hm
    have h1 : l.get ⟨k, hkl⟩ = l.get ⟨j, hj⟩ := by
      rw [List.get_eq_getElem, List.get_eq_getElem,
        ← List.getD_eq_getElem l 0 hkl, ← List.getD_eq_getElem l 0 hj]
      exact hkt
    have h2 := (List.Nodup.get_inj_iff hnd).mp h1
    have h3 := congrArg Fin.val h2
    simp only at h3
    omega
  have hkey := solvable_filter_swap (l.take i) ((l.drop (i + 1)).take (j - i - 1))
    (l.drop (j + 1)) (l.getD j 0) ht h0M
  have hmlen := middle_length l i j hij hj
  set A := l.take i with hA
  set M := (l.drop (i + 1)).take (j - i - 1) with hMdef
  set C := l.drop (j + 1) with hC
  set t := l.getD j 0 with htdef
  refine ⟨M.countP (fun x => decide (x < t)), M.countP (fun x => decide (t < x)), ?_, ?_⟩
  · rw [countP_lt_add_countP_gt M t htM, hmlen]
  · conv_lhs => rw [hdec]
    conv_rhs => rw [hswap]
    exact hkey

theorem mem_ite_singleton {c : Prop} [Decidable c] {x nz : Nat}
    (h : nz ∈ if c then [x] else []) : c ∧ nz = x := by
  by_cases hc : c
  · rw [if_pos hc] at h
    simp at h
    exact ⟨hc, h⟩
  · rw [if_neg hc] at h
    simp at h

/-- Case analysis for membership in `neighbors`. -/
theorem neighbors_cases (b b' : Board) (h : b' ∈ b.neighbors) :
    ∃ nz, b' = ⟨b.n, swapIdx b.tiles b.zero nz, nz⟩ ∧
      ((0 < b.zero / b.n ∧ nz = b.zero - b.n) ∨
       (b.zero / b.n < b.n - 1 ∧ nz = b.zero + b.n) ∨
       (0 < b.zero % b.n ∧ nz = b.zero - 1) ∨
       (b.zero % b.n < b.n - 1 ∧ nz = b.zero + 1)) := by
  unfold Board.neighbors at h
  simp only [List.mem_map, List.mem_append] at h
  obtain ⟨nz, hnz, hb'⟩ := h
  refine ⟨nz, hb'.symm, ?_⟩
  rcases hnz with ((h1 | h2) | h3) | h4
  · exact Or.inl (mem_ite_singleton h1)
  · exact Or.inr (Or.inl (mem_ite_singleton h2))
  · exact Or.inr (Or.inr (Or.inl (mem_ite_singleton h3)))
  · exact Or.inr (Or.inr (Or.inr (mem_ite_singleton h4)))

/-- The symmetric variant: the blank at the higher index `j`. -/
theorem invFilter_swap_blank_high (l : List Nat) (hnd : l.Nodup) (i j : Nat) (hij : i < j)
    (hj : j < l.length) (h0 : l.getD j 0 = 0)
    (hnz : ∀ k, k < l.length → l.getD k 0 = 0 → k = j) :
    ∃ P Q, P + Q = j - i - 1 ∧
      inversions (l.filter (fun x => decide (x ≠ 0))) + P
        = inversions ((swapIdx l i j).filter (fun x => decide (x ≠ 0))) + Q := by
  have hi : i < l.length := lt_trans hij hj
  have hdec := list_decomp l i j hij hj
  have hswap := swapIdx_decomp l i j hij hj
  rw [h0] at hdec hswap
  have ht : l.getD i 0 ≠ 0 := by
    intro h
    have := hnz i hi h
    omega
  have h0M : 0 ∉ (l.drop (i + 1)).take (j - i - 1) := by
    intro hm
    obtain ⟨k, hik, hkj, hkl, hk0⟩ := mem_middle l i j hij hj 0 hm
    have := hnz k hkl hk0
    omega
  have htM : l.getD i 0 ∉ (l.drop (i + 1)).take (j - i - 1) := by
    intro hm
    obtain ⟨k, hik, hkj, hkl, hkt⟩ := mem_middle l i j hij hj _ hm
    have h1 : l.get ⟨k, hkl⟩ = l.get ⟨i, hi⟩ := by
      rw [List.get_eq_getElem, List.get_eq_getElem,
        ← List.getD_eq_getElem l 0 hkl, ← List.getD_eq_getElem l 0 hi]
      exact hkt
    have h2 := (List.Nodup.get_inj_iff hnd).mp h1
    have h3 := congrArg Fin.val h2
    simp only at h3
    omega
  have hkey := solvable_filter_swap (l.take i) ((l.drop (i + 1)).take (j - i - 1))
    (l.drop (j + 1)) (l.getD i 0) ht h0M
  have hmlen := middle_length l i j hij hj
  set A := l.take i with hA
  set M := (l.drop (i + 1)).take (j - i - 1) with hMdef
  set C := l.drop (j + 1) with hC
  set t := l.getD i 0 with htdef
  refine ⟨M.countP (fun x => decide (t < x)), M.countP (fun x => decide (x < t)), ?_, ?_⟩
  · rw [Nat.add_comm, countP_lt_add_countP_gt M t htM, hmlen]
  · conv_lhs => rw [hdec]
    conv_rhs => rw [hswap]
    exact hkey.symm

theorem swapIdx_length (l : List Nat) (i j : Nat) : (swapIdx l i j).length = l.length := by
  simp [swapIdx]

theorem swapIdx_getD (l : List Nat) (i j k : Nat) (hi : i < l.length) (hj : j < l.length)
    (hk : k < l.length) :
    (swapIdx l i j).getD k 0 =
      if k = j then l.getD i 0 else if k = i then l.getD j 0 else l.getD k 0 := by
  unfold swapIdx
  have hlen : ((l.set i (l.getD j 0)).set j (l.getD i 0)).length = l.length := by simp
  rw [List.getD_eq_getElem _ _ (show k < ((l.set i (l.getD j 0)).set j (l.getD i 0)).length by
    rw [hlen]; exact hk)]
  rw [List.getElem_set]
  by_cases h1 : j = k
  · rw [if_pos h1, if_pos h1.symm]
  · rw [if_neg h1, if_neg (fun hh => h1 hh.symm), List.getElem_set]
    by_cases h2 : i = k
    · rw [if_pos h2, if_pos h2.symm, List.getD_eq_getElem _ _ hj]
    · rw [if_neg h2, if_neg (fun hh => h2 hh.symm), List.getD_eq_getElem _ _ hk]

theorem swapIdx_perm (l : List Nat) (i j : Nat) (hij : i < j) (hj : j < l.length) :
    (swapIdx l i j).Perm l := by
  rw [swapIdx_decomp l i j hij hj]
  conv_rhs => rw [list_decomp l i j hij hj]
  apply List.Perm.append_left
  exact (List.Perm.cons _ List.perm_middle).trans
    ((List.Perm.swap _ _ _).trans (List.Perm.cons _ List.perm_middle.symm))

theorem swapIdx_comm (l : List Nat) (i j : Nat) (hij : i ≠ j) :
    swapIdx l i j = swapIdx l j i := by
  unfold swapIdx
  exact List.set_comm _ _ l hij

/-- The blank's move targets are in range and differ from the blank. -/
theorem neighbor_target_bounds (b : Board) (hb : b.Valid) (nz : Nat)
    (hcase : (0 < b.zero / b.n ∧ nz = b.zero - b.n) ∨
             (b.zero / b.n < b.n - 1 ∧ nz = b.zero + b.n) ∨
             (0 < b.zero % b.n ∧ nz = b.zero - 1) ∨
             (b.zero % b.n < b.n - 1 ∧ nz = b.zero + 1)) :
    nz < b.tiles.length ∧ nz ≠ b.zero := by
  have hn2 := hb.1
  have hlen := hb.tiles_length
  have hzlt := hb.zero_lt
  have hdm : b.n * (b.zero / b.n) + b.zero % b.n = b.zero := Nat.div_add_mod _ _
  have hmod : b.zero % b.n < b.n := Nat.mod_lt _ (by omega)
  have hdivlt : b.zero / b.n < b.n := Nat.div_lt_of_lt_mul (hlen ▸ hzlt)
  have hA4 : b.n * (b.n - 1) + b.n = b.n * b.n := by
    obtain ⟨m, hm⟩ : ∃ m, b.n = m + 1 := ⟨b.n - 1, by omega⟩
    rw [hm]
    simp [Nat.add_sub_cancel]
    ring
  have hmul : b.n * (b.zero / b.n) ≤ b.n * (b.n - 1) :=
    Nat.mul_le_mul_left _ (by omega)
  rcases hcase with ⟨hc, rfl⟩ | ⟨hc, rfl⟩ | ⟨hc, rfl⟩ | ⟨hc, rfl⟩
  · have hzn : b.n ≤ b.zero := by
      by_contra h
      push_neg at h
      rw [Nat.div_eq_of_lt h] at hc
      omega
    exact ⟨by omega, by omega⟩
  · have hq2 : b.zero / b.n + 2 ≤ b.n := by omega
    have hmul2 : b.n * (b.zero / b.n + 2) ≤ b.n * b.n := Nat.mul_le_mul_left _ hq2
    rw [Nat.mul_add] at hmul2
    exact ⟨by omega, by omega⟩
  · exact ⟨by omega, by omega⟩
  · exact ⟨by omega, by omega⟩

/-- Every neighbour of a valid board is a valid board. -/
theorem neighbors_valid (b : Board) (hb : b.Valid) : ∀ b' ∈ b.neighbors, b'.Valid := by
  intro b' hmem
  obtain ⟨nz, rfl, hcase⟩ := neighbors_cases b b' hmem
  obtain ⟨hnzlt, hnzne⟩ := neighbor_target_bounds b hb nz hcase
  have hzlt := hb.zero_lt
  have hperm : (swapIdx b.tiles b.zero nz).Perm b.tiles := by
    rcases Nat.lt_or_ge b.zero nz with h | h
    · exact swapIdx_perm b.tiles b.zero nz h hnzlt
    · rw [swapIdx_comm b.tiles b.zero nz (by omega)]
      exact swapIdx_perm b.tiles nz b.zero (by omega) hzlt
  refine ⟨hb.1, hperm.trans hb.2.1, ?_⟩
  have hlen : (swapIdx b.tiles b.zero nz).length = b.tiles.length := swapIdx_length _ _ _
  have hgetnz : (swapIdx b.tiles b.zero nz).getD nz 0 = 0 := by
    rw [swapIdx_getD _ _ _ _ hzlt hnzlt hnzlt, if_pos rfl]
    exact hb.getD_zero
  show nz = _
  rw [eq_comm, List.findIdx_eq (show nz < (swapIdx b.tiles b.zero nz).length by
    rw [hlen]; exact hnzlt)]
  constructor
  · have h := hgetnz
    rw [List.getD_eq_getElem _ _ (show nz < (swapIdx b.tiles b.zero nz).length by
      rw [hlen]; exact hnzlt)] at h
    simpa using h
  · intro k hk
    rw [decide_eq_false_iff_not]
    intro hcon
    have hklen : k < (swapIdx b.tiles b.zero nz).length := by omega
    have h0 : (swapIdx b.tiles b.zero nz).getD k 0 = 0 := by
      rw [List.getD_eq_getElem _ _ hklen]
      exact hcon
    rw [swapIdx_getD _ _ _ _ hzlt hnzlt (by omega)] at h0
    by_cases h1 : k = nz
    · omega
    · rw [if_neg h1] at h0
      by_cases h2 : k = b.zero
      · rw [if_pos h2] at h0
        have := hb.zero_unique nz hnzlt h0
        omega
      · rw [if_neg h2] at h0
        have := hb.zero_unique k (by omega) h0
        omega

theorem is_solvable_def (b : Board) : b.is_solvable =
    (if b.n % 2 = 1 then
      decide (inversions (b.tiles.filter (fun x => decide (x ≠ 0))) % 2 = 0)
    else
      decide ((inversions (b.tiles.filter (fun x => decide (x ≠ 0)))
        + (b.n - b.zero / b.n)) % 2 = 1)) := rfl

/-- One legal move never changes `is_solvable`. -/
theorem is_solvable_neighbor (b : Board) (hb : b.Valid) :
    ∀ b' ∈ b.neighbors, b.is_solvable = b'.is_solvable := by
  intro b' hmem
  obtain ⟨nz, rfl, hcase⟩ := neighbors_cases b b' hmem
  obtain ⟨hnzlt, hnzne⟩ := neighbor_target_bounds b hb nz hcase
  have hn2 := hb.1
  have hlen := hb.tiles_length
  have hzlt := hb.zero_lt
  have h0 := hb.getD_zero
  have hnd := hb.nodup
  have huniq : ∀ k, k < b.tiles.length → b.tiles.getD k 0 = 0 → k = b.zero :=
    fun k hk hk0 => hb.zero_unique k hk hk0
  have hdm : b.n * (b.zero / b.n) + b.zero % b.n = b.zero := Nat.div_add_mod _ _
  have hmod : b.zero % b.n < b.n := Nat.mod_lt _ (by omega)
  have hdivlt : b.zero / b.n < b.n := Nat.div_lt_of_lt_mul (hlen ▸ hzlt)
  rw [is_solvable_def, is_solvable_def]
  dsimp only
  rcases hcase with ⟨hc, rfl⟩ | ⟨hc, rfl⟩ | ⟨hc, rfl⟩ | ⟨hc, rfl⟩
  · -- Up: the blank moves from index `z` to `z - n`
    have hzn : b.n ≤ b.zero := by
      by_contra h
      push_neg at h
      rw [Nat.div_eq_of_lt h] at hc
      omega
    obtain ⟨P, Q, hPQ, heq⟩ := invFilter_swap_blank_high b.tiles hnd (b.zero - b.n) b.zero
      (by omega) hzlt h0 huniq
    rw [swapIdx_comm b.tiles b.zero (b.zero - b.n) (by omega)]
    have hrow : b.zero / b.n = (b.zero - b.n) / b.n + 1 := by
      have e2 := Nat.add_div_right (b.zero - b.n) (show 0 < b.n by omega)
      rw [show b.zero - b.n + b.n = b.zero by omega] at e2
      omega
    by_cases hpar : b.n % 2 = 1
    · rw [if_pos hpar, if_pos hpar, decide_eq_decide]
      omega
    · rw [if_neg hpar, if_neg hpar, decide_eq_decide]
      omega
  · -- Down: the blank moves from index `z` to `z + n`
    obtain ⟨P, Q, hPQ, heq⟩ := invFilter_swap_blank b.tiles hnd b.zero (b.zero + b.n)
      (by omega) hnzlt h0 huniq
    have hrow : (b.zero + b.n) / b.n = b.zero / b.n + 1 :=
      Nat.add_div_right _ (by omega)
    by_cases hpar : b.n % 2 = 1
    · rw [if_pos hpar, if_pos hpar, decide_eq_decide]
      omega
    · rw [if_neg hpar, if_neg hpar, decide_eq_decide]
      omega
  · -- Left: the blank moves from index `z` to `z - 1`
    obtain ⟨P, Q, hPQ, heq⟩ := invFilter_swap_blank_high b.tiles hnd (b.zero - 1) b.zero
      (by omega) hzlt h0 huniq
    rw [swapIdx_comm b.tiles b.zero (b.zero - 1) (by omega)]
    have h1 : b.zero - 1 = b.n * (b.zero / b.n) + (b.zero % b.n - 1) := by omega
    have h2 : (b.n * (b.zero / b.n) + (b.zero % b.n - 1)) / b.n
        = b.zero / b.n + (b.zero % b.n - 1) / b.n := Nat.mul_add_div (by omega) _ _
    have h3 : (b.zero % b.n - 1) / b.n = 0 := Nat.div_eq_of_lt (by omega)
    have hrow : (b.zero - 1) / b.n = b.zero / b.n := by
      rw [h1, h2, h3, Nat.add_zero]
    by_cases hpar : b.n % 2 = 1
    · rw [if_pos hpar, if_pos hpar, decide_eq_decide]
      omega
    · rw [if_neg hpar, if_neg hpar, decide_eq_decide]
      omega
  · -- Right: the blank moves from index `z` to `z + 1`
    obtain ⟨P, Q, hPQ, heq⟩ := invFilter_swap_blank b.tiles hnd b.zero (b.zero + 1)
      (by omega) hnzlt h0 huniq
    have h1 : b.zero + 1 = b.n * (b.zero / b.n) + (b.zero % b.n + 1) := by omega
    have h2 : (b.n * (b.zero / b.n) + (b.zero % b.n + 1)) / b.n
        = b.zero / b.n + (b.zero % b.n + 1) / b.n := Nat.mul_add_div (by omega) _ _
    have h3 : (b.zero % b.n + 1) / b.n = 0 := Nat.div_eq_of_lt (by omega)
    have hrow : (b.zero + 1) / b.n = b.zero / b.n := by
      rw [h1, h2, h3, Nat.add_zero]
    by_cases hpar : b.n % 2 = 1
    · rw [if_pos hpar, if_pos hpar, decide_eq_decide]
      omega
    · rw [if_neg hpar, if_neg hpar, decide_eq_decide]
      omega

/-- C6: `is_solvable` is invariant under every legal move, and hence
under any sequence of legal moves. -/
theorem claim_C6_solvable_invariant (b c : Board) (k : Nat) (hb : b.Valid)
    (h : ReachN b c k) : b.is_solvable = c.is_solvable := by
  induction k generalizing b with
  | zero =>
    have h' : b = c := h
    rw [h']
  | succ k ih =>
    obtain ⟨m, hmem, hrest⟩ := h
    rw [is_solvable_neighbor b hb m hmem, ih m (neighbors_valid b hb m hmem) hrest]

/-- Witness for C6: one move from the 3×3 goal. -/
theorem claim_C6_solvable_invariant_witness :
    (Board.goal 3).is_solvable = Board.is_solvable ⟨3, [1,2,3,4,5,0,7,8,6], 5⟩ :=
  claim_C6_solvable_invariant _ _ 1 (by decide)
    ⟨⟨3, [1,2,3,4,5,0,7,8,6], 5⟩, by decide, rfl⟩

-- ## C8: ragged rows and `from_rows` -----------------------------------

/-- C8, evaluated at the failing input: the ragged rows `[[0],[1,2,3]]`
(row count 2; first row has length 1 ≠ 2) are accepted by `from_rows`,
which returns a board instead of failing: the flattening `[0,1,2,3]`
happens to be a permutation of `{0,…,3}` of length `2*2`. -/
theorem claim_C8_ragged_rows_accepted :
    Board.from_rows [[0], [1,2,3]] = .ok ⟨2, [0,1,2,3], 0⟩ ∧
      ([[0], [1,2,3]] : List (List Nat)).length = 2 ∧
      ([0] : List Nat).length ≠ 2 :=
  ⟨rfl, rfl, by decide⟩

-- ## C7: the shape of `neighbors` --------------------------------------

/-- The blank's target cell is orthogonally adjacent: the Manhattan
distance between the two cells is exactly 1. -/
theorem neighbor_adjacent (b : Board) (hb : b.Valid) (nz : Nat)
    (hcase : (0 < b.zero / b.n ∧ nz = b.zero - b.n) ∨
             (b.zero / b.n < b.n - 1 ∧ nz = b.zero + b.n) ∨
             (0 < b.zero % b.n ∧ nz = b.zero - 1) ∨
             (b.zero % b.n < b.n - 1 ∧ nz = b.zero + 1)) :
    Nat.dist (b.zero / b.n) (nz / b.n) + Nat.dist (b.zero % b.n) (nz % b.n) = 1 := by
  have hn2 := hb.1
  have hdm : b.n * (b.zero / b.n) + b.zero % b.n = b.zero := Nat.div_add_mod _ _
  have hmod : b.zero % b.n < b.n := Nat.mod_lt _ (by omega)
  rcases hcase with ⟨hc, rfl⟩ | ⟨hc, rfl⟩ | ⟨hc, rfl⟩ | ⟨hc, rfl⟩
  · have hzn : b.n ≤ b.zero := by
      by_contra h
      push_neg at h
      rw [Nat.div_eq_of_lt h] at hc
      omega
    have h1 : b.zero - b.n = b.n * (b.zero / b.n - 1) + b.zero % b.n := by
      have hq1 : b.zero / b.n - 1 + 1 = b.zero / b.n := by omega
      have h2 := Nat.mul_succ b.n (b.zero / b.n - 1)
      rw [Nat.succ_eq_add_one, hq1] at h2
      omega
    have hdiv : (b.zero - b.n) / b.n = b.zero / b.n - 1 := by
      rw [h1, Nat.mul_add_div (by omega), Nat.div_eq_of_lt hmod, Nat.add_zero]
    have hmodz : (b.zero - b.n) % b.n = b.zero % b.n := by
      rw [h1, Nat.mul_add_mod, Nat.mod_eq_of_lt hmod]
    rw [hdiv, hmodz]
    simp [Nat.dist]
    omega
  · have hdiv : (b.zero + b.n) / b.n = b.zero / b.n + 1 := Nat.add_div_right _ (by omega)
    have hmodz : (b.zero + b.n) % b.n = b.zero % b.n := Nat.add_mod_right _ _
    rw [hdiv, hmodz]
    simp [Nat.dist]
  · have h1 : b.zero - 1 = b.n * (b.zero / b.n) + (b.zero % b.n - 1) := by omega
    have h3 : (b.zero % b.n - 1) / b.n = 0 := Nat.div_eq_of_lt (by omega)
    have hdiv : (b.zero - 1) / b.n = b.zero / b.n := by
      rw [h1, Nat.mul_add_div (show 0 < b.n by omega), h3, Nat.add_zero]
    have hmodz : (b.zero - 1) % b.n = b.zero % b.n - 1 := by
      rw [h1, Nat.mul_add_mod, Nat.mod_eq_of_lt (show b.zero % b.n - 1 < b.n by omega)]
    rw [hdiv, hmodz]
    simp [Nat.dist]
    omega
  · have h1 : b.zero + 1 = b.n * (b.zero / b.n) + (b.zero % b.n + 1) := by omega
    have h3 : (b.zero % b.n + 1) / b.n = 0 := Nat.div_eq_of_lt (by omega)
    have hdiv : (b.zero + 1) / b.n = b.zero / b.n := by
      rw [h1, Nat.mul_add_div (show 0 < b.n by omega), h3, Nat.add_zero]
    have hmodz : (b.zero + 1) % b.n = b.zero % b.n + 1 := by
      rw [h1, Nat.mul_add_mod, Nat.mod_eq_of_lt (show b.zero % b.n + 1 < b.n by omega)]
    rw [hdiv, hmodz]
    simp [Nat.dist]

theorem neighbors_length_formula (b : Board) :
    b.neighbors.length =
      (if 0 < b.zero / b.n then 1 else 0) + (if b.zero / b.n < b.n - 1 then 1 else 0)
      + (if 0 < b.zero % b.n then 1 else 0) + (if b.zero % b.n < b.n - 1 then 1 else 0) := by
  simp [Board.neighbors, List.length_append, apply_ite List.length]
  omega

theorem neighbors_map_zero (b : Board) :
    b.neighbors.map (fun x => x.zero) =
      (if 0 < b.zero / b.n then [b.zero - b.n] else [])
      ++ (if b.zero / b.n < b.n - 1 then [b.zero + b.n] else [])
      ++ (if 0 < b.zero % b.n then [b.zero - 1] else [])
      ++ (if b.zero % b.n < b.n - 1 then [b.zero + 1] else []) := by
  simp [Board.neighbors, List.map_map, apply_ite (List.map _)]

/-- C7: `neighbors` lists the targets in the order Up, Down, Left, Right
(each exactly when in bounds); the child count is 2 in a corner, 3 on an
edge, 4 in the interior; and each child is the parent with the blank
swapped into an orthogonally adjacent cell, all other entries unchanged
(the parent itself is a value and is never mutated). -/
theorem claim_C7_neighbors (b : Board) (hb : b.Valid) :
    (b.neighbors.map (fun x => x.zero) =
      (if 0 < b.zero / b.n then [b.zero - b.n] else [])
      ++ (if b.zero / b.n < b.n - 1 then [b.zero + b.n] else [])
      ++ (if 0 < b.zero % b.n then [b.zero - 1] else [])
      ++ (if b.zero % b.n < b.n - 1 then [b.zero + 1] else []))
    ∧ (((b.zero / b.n = 0 ∨ b.zero / b.n = b.n - 1) ∧
        (b.zero % b.n = 0 ∨ b.zero % b.n = b.n - 1)) → b.neighbors.length = 2)
    ∧ ((((b.zero / b.n = 0 ∨ b.zero / b.n = b.n - 1) ∧
          0 < b.zero % b.n ∧ b.zero % b.n < b.n - 1)
        ∨ ((b.zero % b.n = 0 ∨ b.zero % b.n = b.n - 1) ∧
          0 < b.zero / b.n ∧ b.zero / b.n < b.n - 1)) → b.neighbors.length = 3)
    ∧ ((0 < b.zero / b.n ∧ b.zero / b.n < b.n - 1 ∧
        0 < b.zero % b.n ∧ b.zero % b.n < b.n - 1) → b.neighbors.length = 4)
    ∧ (∀ b' ∈ b.neighbors, b'.n = b.n ∧ b'.Valid ∧ ∃ nz, nz < b.tiles.length ∧
        Nat.dist (b.zero / b.n) (nz / b.n) + Nat.dist (b.zero % b.n) (nz % b.n) = 1 ∧
        b'.zero = nz ∧ b'.tiles.getD nz 0 = 0 ∧
        b'.tiles.getD b.zero 0 = b.tiles.getD nz 0 ∧
        (∀ i, i < b.tiles.length → i ≠ b.zero → i ≠ nz →
          b'.tiles.getD i 0 = b.tiles.getD i 0)) := by
  have hn2 := hb.1
  have hpair1 : ∀ x : Nat, (x = 0 ∨ x = b.n - 1) →
      ((if 0 < x then 1 else 0) + (if x < b.n - 1 then 1 else 0) : Nat) = 1 := by
    intro x hx
    rcases hx with rfl | rfl
    · rw [if_neg (by omega), if_pos (by omega)]
    · rw [if_pos (by omega), if_neg (by omega)]
  have hpair2 : ∀ x : Nat, (0 < x ∧ x < b.n - 1) →
      ((if 0 < x then 1 else 0) + (if x < b.n - 1 then 1 else 0) : Nat) = 2 := by
    intro x hx
    rw [if_pos (by omega), if_pos (by omega)]
  refine ⟨neighbors_map_zero b, ?_, ?_, ?_, ?_⟩
  · rintro ⟨hr, hc⟩
    have h1 := hpair1 _ hr
    have h2 := hpair1 _ hc
    rw [neighbors_length_formula]
    omega
  · rintro (⟨hr, hc⟩ | ⟨hc, hr⟩)
    · have h1 := hpair1 _ hr
      have h2 := hpair2 _ hc
      rw [neighbors_length_formula]
      omega
    · have h1 := hpair2 _ hr
      have h2 := hpair1 _ hc
      rw [neighbors_length_formula]
      omega
  · rintro ⟨hr1, hr2, hc1, hc2⟩
    have h1 := hpair2 _ ⟨hr1, hr2⟩
    have h2 := hpair2 _ ⟨hc1, hc2⟩
    rw [neighbors_length_formula]
    omega
  · intro b' hmem
    have hval := neighbors_valid b hb b' hmem
    obtain ⟨nz, rfl, hcase⟩ := neighbors_cases b b' hmem
    obtain ⟨hnzlt, hnzne⟩ := neighbor_target_bounds b hb nz hcase
    have hzlt := hb.zero_lt
    refine ⟨rfl, hval, nz, hnzlt, neighbor_adjacent b hb nz hcase, rfl, ?_, ?_, ?_⟩
    · show (swapIdx b.tiles b.zero nz).getD nz 0 = 0
      rw [swapIdx_getD _ _ _ _ hzlt hnzlt hnzlt, if_pos rfl]
      exact hb.getD_zero
    · show (swapIdx b.tiles b.zero nz).getD b.zero 0 = _
      rw [swapIdx_getD _ _ _ _ hzlt hnzlt hzlt, if_neg (fun h => hnzne h.symm), if_pos rfl]
    · intro i hi hiz hinz
      show (swapIdx b.tiles b.zero nz).getD i 0 = _
      rw [swapIdx_getD _ _ _ _ hzlt hnzlt hi, if_neg hinz, if_neg hiz]

/-- Witness for C7 at the 3×3 goal board (blank in a corner). -/
theorem claim_C7_neighbors_witness :
    (Board.goal 3).neighbors.length = 2 :=
  (claim_C7_neighbors (Board.goal 3) (by decide)).2.1 (by decide)

-- ## C9: the Manhattan heuristic changes by at most 1 per move ---------

theorem sumIdx_set (f : Nat → Nat → Nat) (l : List Nat) (k x : Nat) (hk : k < l.length) :
    ∀ i, sumIdx f i (l.set k x) + f (i + k) (l.getD k 0) = sumIdx f i l + f (i + k) x := by
  induction l generalizing k with
  | nil => simp at hk
  | cons v rest ih =>
    intro i
    cases k with
    | zero =>
      simp only [List.set_cons_zero, sumIdx, List.getD_cons_zero, Nat.add_zero]
      omega
    | succ k' =>
      have hk' : k' < rest.length := by simpa using hk
      have hstep := ih k' hk' (i + 1)
      simp only [List.set_cons_succ, sumIdx, List.getD_cons_succ]
      have hidx : i + 1 + k' = i + (k' + 1) := by omega
      rw [hidx] at hstep
      omega

/-- The exact change of `h2_manhattan` across a single blank swap: the
moved tile's distance term is replaced, everything else is unchanged. -/
theorem h2_neighbor_eq (b : Board) (hb : b.Valid) (nz : Nat)
    (hnzlt : nz < b.tiles.length) (hnzne : nz ≠ b.zero) :
    h2_manhattan ⟨b.n, swapIdx b.tiles b.zero nz, nz⟩
      + manDist b.n nz (b.tiles.getD nz 0)
    = h2_manhattan b + manDist b.n b.zero (b.tiles.getD nz 0) := by
  have hzlt := hb.zero_lt
  have h0 := hb.getD_zero
  have ht : b.tiles.getD nz 0 ≠ 0 := fun h => hnzne (hb.zero_unique nz hnzlt h)
  have hset1 := sumIdx_set (fun i v => if v = 0 then 0 else manDist b.n i v)
    b.tiles b.zero (b.tiles.getD nz 0) hzlt 0
  have hset2 := sumIdx_set (fun i v => if v = 0 then 0 else manDist b.n i v)
    (b.tiles.set b.zero (b.tiles.getD nz 0)) nz 0
    (by rw [List.length_set]; exact hnzlt) 0
  have hgd : (b.tiles.set b.zero (b.tiles.getD nz 0)).getD nz 0 = b.tiles.getD nz 0 := by
    rw [List.getD_eq_getElem _ _ (show nz < (b.tiles.set b.zero (b.tiles.getD nz 0)).length by
        rw [List.length_set]; exact hnzlt),
      List.getElem_set, if_neg (fun h => hnzne h.symm), ← List.getD_eq_getElem b.tiles 0 hnzlt]
  have hswap : swapIdx b.tiles b.zero nz = (b.tiles.set b.zero (b.tiles.getD nz 0)).set nz 0 := by
    unfold swapIdx
    rw [h0]
  rw [h2_eq_sumIdx, h2_eq_sumIdx]
  dsimp only
  rw [hswap]
  rw [hgd] at hset2
  rw [h0] at hset1
  simp only [Nat.zero_add, if_neg ht, if_pos rfl, if_true] at hset1 hset2
  omega

/-- C9: one legal move changes `h2_manhattan` by at most 1. -/
theorem claim_C9_h2_lipschitz (b : Board) (hb : b.Valid) :
    ∀ b' ∈ b.neighbors, ((h2_manhattan b : Int) - h2_manhattan b').natAbs ≤ 1 := by
  intro b' hmem
  obtain ⟨nz, rfl, hcase⟩ := neighbors_cases b b' hmem
  obtain ⟨hnzlt, hnzne⟩ := neighbor_target_bounds b hb nz hcase
  have heq := h2_neighbor_eq b hb nz hnzlt hnzne
  have hadj := neighbor_adjacent b hb nz hcase
  have htri1 := Nat.dist.triangle_inequality (b.zero / b.n) (nz / b.n)
    ((b.tiles.getD nz 0 - 1) / b.n)
  have htri2 := Nat.dist.triangle_inequality (b.zero % b.n) (nz % b.n)
    ((b.tiles.getD nz 0 - 1) % b.n)
  have htri3 := Nat.dist.triangle_inequality (nz / b.n) (b.zero / b.n)
    ((b.tiles.getD nz 0 - 1) / b.n)
  have htri4 := Nat.dist.triangle_inequality (nz % b.n) (b.zero % b.n)
    ((b.tiles.getD nz 0 - 1) % b.n)
  have hsym1 : Nat.dist (nz / b.n) (b.zero / b.n) = Nat.dist (b.zero / b.n) (nz / b.n) :=
    Nat.dist_comm _ _
  have hsym2 : Nat.dist (nz % b.n) (b.zero % b.n) = Nat.dist (b.zero % b.n) (nz % b.n) :=
    Nat.dist_comm _ _
  unfold manDist at heq
  omega

/-- Witness for C9: one move from the 3×3 goal. -/
theorem claim_C9_h2_lipschitz_witness :
    ((h2_manhattan (Board.goal 3) : Int)
      - h2_manhattan ⟨3, [1,2,3,4,5,0,7,8,6], 5⟩).natAbs ≤ 1 :=
  claim_C9_h2_lipschitz (Board.goal 3) (by decide) _ (by decide)

-- ## C10: a start that is already the goal -----------------------------

theorem alistGet_cons {α β : Type} [DecidableEq α] (k' : α) (v : β) (m : List (α × β))
    (k : α) : alistGet ((k', v) :: m) k = if k' = k then some v else alistGet m k := by
  unfold alistGet
  by_cases h : k' = k
  · rw [List.find?_cons_of_pos _ (by simpa using h), if_pos h]
    rfl
  · rw [List.find?_cons_of_neg _ (by simpa using h), if_neg h]

theorem astarLoop_succ (heuristic : Board → Nat) (fuel : Nat) (s : AState) :
    astarLoop heuristic (fuel + 1) s =
      match popMin s.heap with
      | none => some ⟨false, -1, s.expanded, none⟩
      | some (e, rest) =>
        if (alistGet s.gv e.board.tiles).getD SENT < e.g then
          astarLoop heuristic fuel { s with heap := rest }
        else
          let s1 : AState := { s with heap := rest, expanded := s.expanded + 1 }
          if e.board.is_goal then
            some ⟨true, (e.g : Int), s1.expanded,
              some (reconstructPath s1.parent (s1.parent.length + 1) e.board [])⟩
          else
            astarLoop heuristic fuel (e.board.neighbors.foldl (relax heuristic e.g e.board) s1) :=
  rfl

/-- C10: when the start is already the goal, `astar` pops it on the first
iteration, counts one expansion, and returns depth 0 with the one-board
path — for any heuristic. -/
theorem claim_C10_goal_start (b : Board) (heuristic : Board → Nat) (_hb : b.Valid)
    (hg : b.is_goal = true) :
    astar b heuristic = some ⟨true, 0, 1, some [b]⟩ := by
  have hfuel : fuelBound b = (2 * (Nat.factorial (b.n * b.n)) ^ 2 + 1) + 1 := by
    unfold fuelBound
    omega
  have hget : alistGet [(b.tiles, (0:Nat))] b.tiles = some 0 := by
    rw [alistGet_cons, if_pos rfl]
  have hgetp : alistGet [(b.tiles, (none : Option Board))] b.tiles = some none := by
    rw [alistGet_cons, if_pos rfl]
  have hpop : popMin [(⟨heuristic b, 0, 0, b⟩ : Entry)]
      = some (⟨heuristic b, 0, 0, b⟩, []) := rfl
  unfold astar astarInit
  rw [hfuel, astarLoop_succ]
  dsimp only
  rw [hpop]
  dsimp only
  rw [hget]
  rw [if_neg (show ¬ ((some (0:Nat)).getD SENT < 0) by simp)]
  rw [if_pos hg]
  dsimp only [reconstructPath]
  rw [hgetp]
  rfl

/-- Witness for C10 at the 3×3 goal board with the Manhattan heuristic. -/
theorem claim_C10_goal_start_witness :
    astar (Board.goal 3) h2_manhattan = some ⟨true, 0, 1, some [Board.goal 3]⟩ :=
  claim_C10_goal_start (Board.goal 3) h2_manhattan (by decide) (by decide)

-- ## A* engine: frontier and dictionary lemmas -------------------------

theorem keyLE_iff (a b : Entry) : keyLE a b = true ↔
    (a.f < b.f ∨ (a.f = b.f ∧ (a.g < b.g ∨ (a.g = b.g ∧ a.tie ≤ b.tie)))) := by
  unfold keyLE
  simp

theorem keyLE_refl (a : Entry) : keyLE a a = true := by
  rw [keyLE_iff]
  omega

theorem keyLE_trans (a b c : Entry) (h1 : keyLE a b = true) (h2 : keyLE b c = true) :
    keyLE a c = true := by
  rw [keyLE_iff] at h1 h2 ⊢
  omega

theorem keyLE_total (a b : Entry) : keyLE a b = true ∨ keyLE b a = true := by
  rw [keyLE_iff, keyLE_iff]
  omega

theorem keyLE_f_le (a b : Entry) (h : keyLE a b = true) : a.f ≤ b.f := by
  rw [keyLE_iff] at h
  omega

theorem popMin_eq_none_iff (l : List Entry) : popMin l = none ↔ l = [] := by
  cases l with
  | nil => simp [popMin]
  | cons e rest =>
    simp only [popMin]
    cases popMin rest with
    | none => simp
    | some mr =>
      obtain ⟨m, r⟩ := mr
      by_cases h : keyLE e m <;> simp [h]

theorem popMin_perm (l : List Entry) (e : Entry) (r : List Entry)
    (h : popMin l = some (e, r)) : l.Perm (e :: r) := by
  induction l generalizing e r with
  | nil => simp [popMin] at h
  | cons a rest ih =>
    simp only [popMin] at h
    cases hrec : popMin rest with
    | none =>
      rw [hrec] at h
      have : rest = [] := (popMin_eq_none_iff rest).mp hrec
      subst this
      simp at h
      obtain ⟨rfl, rfl⟩ := h
      exact List.Perm.refl _
    | some mr =>
      obtain ⟨m, r'⟩ := mr
      rw [hrec] at h
      dsimp only at h
      have hperm := ih m r' hrec
      by_cases hk : keyLE a m
      · rw [if_pos hk] at h
        simp at h
        obtain ⟨rfl, rfl⟩ := h
        exact List.Perm.refl _
      · rw [if_neg hk] at h
        simp at h
        obtain ⟨rfl, rfl⟩ := h
        exact (List.Perm.cons a hperm).trans (List.Perm.swap _ _ _)

theorem popMin_min (l : List Entry) (e : Entry) (r : List Entry)
    (h : popMin l = some (e, r)) : ∀ x ∈ l, keyLE e x = true := by
  induction l generalizing e r with
  | nil => simp [popMin] at h
  | cons a rest ih =>
    simp only [popMin] at h
    cases hrec : popMin rest with
    | none =>
      rw [hrec] at h
      have : rest = [] := (popMin_eq_none_iff rest).mp hrec
      subst this
      simp at h
      obtain ⟨rfl, rfl⟩ := h
      intro x hx
      simp at hx
      subst hx
      exact keyLE_refl _
    | some mr =>
      obtain ⟨m, r'⟩ := mr
      rw [hrec] at h
      dsimp only at h
      have hmin := ih m r' hrec
      by_cases hk : keyLE a m
      · rw [if_pos hk] at h
        simp at h
        obtain ⟨rfl, rfl⟩ := h
        intro x hx
        rcases List.mem_cons.mp hx with rfl | hx
        · exact keyLE_refl _
        · exact keyLE_trans _ m x hk (hmin x hx)
      · rw [if_neg hk] at h
        simp at h
        obtain ⟨rfl, rfl⟩ := h
        intro x hx
        rcases List.mem_cons.mp hx with rfl | hx
        · rcases keyLE_total _ x with hle | hle
          · exact hle
          · exact absurd hle hk
        · exact hmin x hx

theorem alistGet_mem {α β : Type} [DecidableEq α] (m : List (α × β)) (k : α) (v : β)
    (h : alistGet m k = some v) : (k, v) ∈ m := by
  induction m with
  | nil => simp [alistGet] at h
  | cons p rest ih =>
    obtain ⟨k', v'⟩ := p
    rw [alistGet_cons] at h
    by_cases hk : k' = k
    · rw [if_pos hk] at h
      simp at h
      subst hk
      subst h
      exact List.mem_cons_self _ _
    · rw [if_neg hk] at h
      exact List.mem_cons_of_mem _ (ih h)

theorem alistGet_none_iff {α β : Type} [DecidableEq α] (m : List (α × β)) (k : α) :
    alistGet m k = none ↔ k ∉ m.map (fun p => p.1) := by
  induction m with
  | nil => simp [alistGet]
  | cons p rest ih =>
    obtain ⟨k', v'⟩ := p
    rw [alistGet_cons]
    by_cases hk : k' = k
    · subst hk
      constructor
      · intro h
        simp at h
      · intro h
        exfalso
        apply h
        simp
    · rw [if_neg hk, ih]
      rw [List.map_cons, List.mem_cons]
      constructor
      · intro h hmem
        rcases hmem with h1 | h1
        · exact hk h1.symm
        · exact h h1
      · intro h h1
        exact h (Or.inr h1)

theorem alistGet_set_self {α β : Type} [DecidableEq α] (m : List (α × β)) (k : α) (v : β) :
    alistGet (alistSet m k v) k = some v := by
  induction m with
  | nil => simp [alistSet, alistGet_cons]
  | cons p rest ih =>
    obtain ⟨k', v'⟩ := p
    unfold alistSet
    by_cases hk : k' = k
    · rw [if_pos hk, alistGet_cons, if_pos rfl]
    · rw [if_neg hk, alistGet_cons, if_neg hk]
      exact ih

theorem alistGet_set_ne {α β : Type} [DecidableEq α] (m : List (α × β)) (k : α) (v : β)
    (k2 : α) (hne : k ≠ k2) : alistGet (alistSet m k v) k2 = alistGet m k2 := by
  induction m with
  | nil => simp [alistSet, alistGet_cons, hne, alistGet]
  | cons p rest ih =>
    obtain ⟨k', v'⟩ := p
    unfold alistSet
    by_cases hk : k' = k
    · rw [if_pos hk, alistGet_cons, if_neg hne, alistGet_cons, hk, if_neg hne]
    · rw [if_neg hk, alistGet_cons, alistGet_cons]
      by_cases hk2 : k' = k2
      · rw [if_pos hk2, if_pos hk2]
      · rw [if_neg hk2, if_neg hk2]
        exact ih

theorem alistSet_mem_cases {α β : Type} [DecidableEq α] (m : List (α × β)) (k : α) (v : β)
    (p : α × β) (h : p ∈ alistSet m k v) : p = (k, v) ∨ p ∈ m := by
  induction m with
  | nil =>
    simp [alistSet] at h
    left
    simp [h]
  | cons q rest ih =>
    obtain ⟨k', v'⟩ := q
    unfold alistSet at h
    by_cases hk : k' = k
    · rw [if_pos hk] at h
      rcases List.mem_cons.mp h with rfl | h
      · left; rfl
      · right; exact List.mem_cons_of_mem _ h
    · rw [if_neg hk] at h
      rcases List.mem_cons.mp h with rfl | h
      · right; exact List.mem_cons_self _ _
      · rcases ih h with h | h
        · left; exact h
        · right; exact List.mem_cons_of_mem _ h

theorem alistSet_map_fst_update {α β : Type} [DecidableEq α] (m : List (α × β)) (k : α)
    (v : β) (h : k ∈ m.map (fun p => p.1)) :
    (alistSet m k v).map (fun p => p.1) = m.map (fun p => p.1) := by
  induction m with
  | nil => simp at h
  | cons q rest ih =>
    obtain ⟨k', v'⟩ := q
    unfold alistSet
    by_cases hk : k' = k
    · rw [if_pos hk, List.map_cons, List.map_cons, hk]
    · rw [if_neg hk, List.map_cons, List.map_cons, ih]
      rw [List.map_cons, List.mem_cons] at h
      rcases h with h | h
      · exact absurd h.symm hk
      · exact h

theorem alistSet_map_fst_new {α β : Type} [DecidableEq α] (m : List (α × β)) (k : α)
    (v : β) (h : k ∉ m.map (fun p => p.1)) :
    (alistSet m k v).map (fun p => p.1) = m.map (fun p => p.1) ++ [k] := by
  induction m with
  | nil => simp [alistSet]
  | cons q rest ih =>
    obtain ⟨k', v'⟩ := q
    unfold alistSet
    rw [List.map_cons, List.mem_cons] at h
    push_neg at h
    rw [if_neg (fun hkk => h.1 hkk.symm), List.map_cons, List.map_cons, ih h.2,
      List.cons_append]

theorem alistSet_length_update {α β : Type} [DecidableEq α] (m : List (α × β)) (k : α)
    (v : β) (h : k ∈ m.map (fun p => p.1)) : (alistSet m k v).length = m.length := by
  have := alistSet_map_fst_update m k v h
  have h1 : ((alistSet m k v).map (fun p => p.1)).length = (m.map (fun p => p.1)).length := by
    rw [this]
  simpa using h1

theorem alistSet_length_new {α β : Type} [DecidableEq α] (m : List (α × β)) (k : α)
    (v : β) (h : k ∉ m.map (fun p => p.1)) : (alistSet m k v).length = m.length + 1 := by
  have := alistSet_map_fst_new m k v h
  have h1 : ((alistSet m k v).map (fun p => p.1)).length
      = (m.map (fun p => p.1) ++ [k]).length := by rw [this]
  simpa using h1

theorem alistSet_keys_nodup {α β : Type} [DecidableEq α] (m : List (α × β)) (k : α) (v : β)
    (h : (m.map (fun p => p.1)).Nodup) : ((alistSet m k v).map (fun p => p.1)).Nodup := by
  by_cases hmem : k ∈ m.map (fun p => p.1)
  · rw [alistSet_map_fst_update m k v hmem]
    exact h
  · rw [alistSet_map_fst_new m k v hmem]
    rw [List.nodup_append]
    exact ⟨h, List.nodup_singleton k, by
      intro x hx
      simp only [List.mem_singleton]
      intro hxk
      exact hmem (hxk ▸ hx)⟩

/-- The sum of the recorded costs. -/
def gvSum (m : List (List Nat × Nat)) : Nat := (m.map (fun p => p.2)).sum

theorem gvSum_set (m : List (List Nat × Nat)) (k : List Nat) (v w : Nat)
    (h : alistGet m k = some w) : gvSum (alistSet m k v) + w = gvSum m + v := by
  induction m with
  | nil => simp [alistGet] at h
  | cons q rest ih =>
    obtain ⟨k', v'⟩ := q
    rw [alistGet_cons] at h
    unfold alistSet
    by_cases hk : k' = k
    · rw [if_pos hk] at h
      simp at h
      subst h
      rw [if_pos hk]
      simp only [gvSum, List.map_cons, List.sum_cons]
      omega
    · rw [if_neg hk] at h
      rw [if_neg hk]
      simp only [gvSum, List.map_cons, List.sum_cons]
      have := ih h
      simp only [gvSum] at this
      omega

theorem gvSum_set_new (m : List (List Nat × Nat)) (k : List Nat) (v : Nat)
    (h : alistGet m k = none) : gvSum (alistSet m k v) = gvSum m + v := by
  induction m with
  | nil => simp [alistSet, gvSum]
  | cons q rest ih =>
    obtain ⟨k', v'⟩ := q
    rw [alistGet_cons] at h
    unfold alistSet
    by_cases hk : k' = k
    · rw [if_pos hk] at h
      simp at h
    · rw [if_neg hk] at h
      rw [if_neg hk]
      simp only [gvSum, List.map_cons, List.sum_cons]
      have := ih h
      simp only [gvSum] at this
      omega

-- ## C2: termination of the A* loop ------------------------------------

/-- Neighbours keep the grid dimension. -/
theorem neighbors_n (b b' : Board) (h : b' ∈ b.neighbors) : b'.n = b.n := by
  obtain ⟨nz, rfl, _⟩ := neighbors_cases b b' h
  rfl

/-- The number of tile sequences of an n×n board (the permutations of
`{0, ..., n*n-1}`): an upper bound on the size of the `g_values` map. -/
def NB (s0 : Board) : Nat := Nat.factorial (s0.n * s0.n)

/-- The dictionary part of the loop measure: each still-unrecorded state
weighs `NB`, each recorded state weighs its recorded cost (always below
`NB`), so recording a new state or lowering a recorded cost decreases it. -/
def dictM (s0 : Board) (s : AState) : Nat :=
  (NB s0 - s.gv.length) * NB s0 + gvSum s.gv

/-- The loop measure: twice the dictionary part plus the frontier size.
Every iteration of the `while` loop strictly decreases it. -/
def aMeasure (s0 : Board) (s : AState) : Nat :=
  2 * dictM s0 s + s.heap.length

/-- The termination invariant of the `astar` loop: the `g_values` keys
are distinct permutations of the start's tile multiset, every recorded
cost is below the map size, every frontier entry points at a recorded
state no cheaper than the entry, and every frontier board is valid. -/
structure TInv (s0 : Board) (s : AState) : Prop where
  keysNodup : (s.gv.map (fun p => p.1)).Nodup
  keysPerm : ∀ k ∈ s.gv.map (fun p => p.1), k.Perm (List.range (s0.n * s0.n))
  valBound : ∀ p ∈ s.gv, p.2 + 1 ≤ s.gv.length
  heapRec : ∀ e ∈ s.heap, ∃ v, alistGet s.gv e.board.tiles = some v ∧ v ≤ e.g
  heapGood : ∀ e ∈ s.heap, e.board.Valid ∧ e.board.n = s0.n

/-- A nodup family of permutations of `range (n*n)` has at most `(n*n)!`
members: the `g_values` map can never outgrow the state space. -/
theorem gvLen_le_NB (s0 : Board) (gv : List (List Nat × Nat))
    (hnd : (gv.map (fun p => p.1)).Nodup)
    (hperm : ∀ k ∈ gv.map (fun p => p.1), k.Perm (List.range (s0.n * s0.n))) :
    gv.length ≤ NB s0 := by
  have hlen : (gv.map (fun p => p.1)).length = gv.length := List.length_map _ _
  have hcard : (gv.map (fun p => p.1)).toFinset.card = gv.length := by
    rw [List.toFinset_card_of_nodup hnd, hlen]
  have hsub : (gv.map (fun p => p.1)).toFinset ⊆
      ((List.range (s0.n * s0.n)).permutations).toFinset := by
    intro k hk
    rw [List.mem_toFinset] at hk ⊢
    rw [List.mem_permutations]
    exact hperm k hk
  have h1 := Finset.card_le_card hsub
  have h2 := List.toFinset_card_le ((List.range (s0.n * s0.n)).permutations)
  have h3 : ((List.range (s0.n * s0.n)).permutations).length
      = Nat.factorial (s0.n * s0.n) := by
    rw [List.length_permutations, List.length_range]
  unfold NB
  omega

/-- One relaxation step preserves the invariant, never increases the
measure (it pays for its heap push by decreasing the dictionary part),
and never shrinks the dictionary. -/
theorem relax_step (s0 : Board) (hf : Board → Nat) (g : Nat) (cur nb : Board)
    (hnbv : nb.Valid) (hnbn : nb.n = s0.n) (s : AState) (hs : TInv s0 s)
    (hg1 : g + 1 ≤ s.gv.length) :
    TInv s0 (relax hf g cur s nb) ∧
      aMeasure s0 (relax hf g cur s nb) ≤ aMeasure s0 s ∧
      s.gv.length ≤ (relax hf g cur s nb).gv.length := by
  have hrelax : relax hf g cur s nb =
      if g + 1 < (alistGet s.gv nb.tiles).getD SENT then
        AState.mk (Entry.mk (g + 1 + hf nb) (g + 1) s.tie nb :: s.heap)
          (alistSet s.gv nb.tiles (g + 1)) (alistSet s.parent nb.tiles (some cur))
          (s.tie + 1) s.expanded
      else s := rfl
  by_cases hguard : g + 1 < (alistGet s.gv nb.tiles).getD SENT
  · rw [hrelax, if_pos hguard]
    cases hget : alistGet s.gv nb.tiles with
    | some v =>
      rw [hget] at hguard
      have hv : g + 1 < v := by simpa using hguard
      have hmem : nb.tiles ∈ s.gv.map (fun p => p.1) := by
        by_contra hmem
        have hnone := (alistGet_none_iff s.gv nb.tiles).mpr hmem
        rw [hnone] at hget
        exact Option.noConfusion hget
      have hpair : (nb.tiles, v) ∈ s.gv := alistGet_mem _ _ _ hget
      have hvlen : v + 1 ≤ s.gv.length := hs.valBound _ hpair
      have hkeys := alistSet_map_fst_update s.gv nb.tiles (g + 1) hmem
      have hlen : (alistSet s.gv nb.tiles (g + 1)).length = s.gv.length :=
        alistSet_length_update _ _ _ hmem
      have hsum := gvSum_set s.gv nb.tiles (g + 1) v hget
      refine ⟨⟨?_, ?_, ?_, ?_, ?_⟩, ?_, ?_⟩
      · dsimp only
        rw [hkeys]
        exact hs.keysNodup
      · dsimp only
        rw [hkeys]
        exact hs.keysPerm
      · dsimp only
        intro p hp
        rw [hlen]
        rcases alistSet_mem_cases _ _ _ _ hp with rfl | hp
        · dsimp only
          omega
        · exact hs.valBound p hp
      · dsimp only
        intro e he
        rcases List.mem_cons.mp he with rfl | he
        · exact ⟨g + 1, alistGet_set_self _ _ _, Nat.le_refl _⟩
        · obtain ⟨w, hw, hwle⟩ := hs.heapRec e he
          by_cases hbt : nb.tiles = e.board.tiles
          · refine ⟨g + 1, ?_, ?_⟩
            · rw [← hbt]
              exact alistGet_set_self _ _ _
            · rw [← hbt, hget] at hw
              have hvw := Option.some.inj hw
              omega
          · refine ⟨w, ?_, hwle⟩
            rw [alistGet_set_ne _ _ _ _ hbt]
            exact hw
      · dsimp only
        intro e he
        rcases List.mem_cons.mp he with rfl | he
        · exact ⟨hnbv, hnbn⟩
        · exact hs.heapGood e he
      · unfold aMeasure dictM
        dsimp only
        rw [hlen, List.length_cons]
        omega
      · dsimp only
        rw [hlen]
    | none =>
      have hnotmem : nb.tiles ∉ s.gv.map (fun p => p.1) := (alistGet_none_iff _ _).mp hget
      have hkeys := alistSet_map_fst_new s.gv nb.tiles (g + 1) hnotmem
      have hlen : (alistSet s.gv nb.tiles (g + 1)).length = s.gv.length + 1 :=
        alistSet_length_new _ _ _ hnotmem
      have hsum := gvSum_set_new s.gv nb.tiles (g + 1) hget
      have hnd' : ((alistSet s.gv nb.tiles (g + 1)).map (fun p => p.1)).Nodup :=
        alistSet_keys_nodup _ _ _ hs.keysNodup
      have hperm' : ∀ k ∈ (alistSet s.gv nb.tiles (g + 1)).map (fun p => p.1),
          k.Perm (List.range (s0.n * s0.n)) := by
        rw [hkeys]
        intro k hk
        rcases List.mem_append.mp hk with hk | hk
        · exact hs.keysPerm k hk
        · have hkt : k = nb.tiles := by simpa using hk
          rw [hkt]
          have hp := hnbv.2.1
          rw [hnbn] at hp
          exact hp
      have hNB : (alistSet s.gv nb.tiles (g + 1)).length ≤ NB s0 :=
        gvLen_le_NB s0 _ hnd' hperm'
      rw [hlen] at hNB
      refine ⟨⟨?_, ?_, ?_, ?_, ?_⟩, ?_, ?_⟩
      · exact hnd'
      · exact hperm'
      · dsimp only
        intro p hp
        rw [hlen]
        rcases alistSet_mem_cases _ _ _ _ hp with rfl | hp
        · dsimp only
          omega
        · have := hs.valBound p hp
          omega
      · dsimp only
        intro e he
        rcases List.mem_cons.mp he with rfl | he
        · exact ⟨g + 1, alistGet_set_self _ _ _, Nat.le_refl _⟩
        · obtain ⟨w, hw, hwle⟩ := hs.heapRec e he
          by_cases hbt : nb.tiles = e.board.tiles
          · rw [← hbt, hget] at hw
            exact Option.noConfusion hw
          · refine ⟨w, ?_, hwle⟩
            rw [alistGet_set_ne _ _ _ _ hbt]
            exact hw
      · dsimp only
        intro e he
        rcases List.mem_cons.mp he with rfl | he
        · exact ⟨hnbv, hnbn⟩
        · exact hs.heapGood e he
      · unfold aMeasure dictM
        dsimp only
        rw [hlen, hsum, List.length_cons]
        have hsplit : (NB s0 - s.gv.length) * NB s0
            = (NB s0 - (s.gv.length + 1)) * NB s0 + NB s0 := by
          have h1 : NB s0 - s.gv.length = (NB s0 - (s.gv.length + 1)) + 1 := by omega
          rw [h1, Nat.add_mul, Nat.one_mul]
        rw [hsplit]
        omega
      · dsimp only
        rw [hlen]
        omega
  · rw [hrelax, if_neg hguard]
    exact ⟨hs, Nat.le_refl _, Nat.le_refl _⟩

/-- Folding `relax` over any list of valid neighbours preserves the
invariant, never increases the measure, and never shrinks `g_values`. -/
theorem foldl_relax_inv (s0 : Board) (hf : Board → Nat) (g : Nat) (cur : Board)
    (l : List Board) :
    ∀ s : AState, (∀ nb ∈ l, nb.Valid ∧ nb.n = s0.n) → TInv s0 s → g + 1 ≤ s.gv.length →
      TInv s0 (l.foldl (relax hf g cur) s) ∧
        aMeasure s0 (l.foldl (relax hf g cur) s) ≤ aMeasure s0 s ∧
        s.gv.length ≤ (l.foldl (relax hf g cur) s).gv.length := by
  induction l with
  | nil =>
    intro s _ hs _
    exact ⟨hs, Nat.le_refl _, Nat.le_refl _⟩
  | cons nb rest ih =>
    intro s hl hs hg1
    have hnb := hl nb (List.mem_cons_self _ _)
    obtain ⟨hinv', hme', hlen'⟩ := relax_step s0 hf g cur nb hnb.1 hnb.2 s hs hg1
    have hrest : ∀ x ∈ rest, x.Valid ∧ x.n = s0.n :=
      fun x hx => hl x (List.mem_cons_of_mem _ hx)
    obtain ⟨h1, h2, h3⟩ := ih (relax hf g cur s nb) hrest hinv' (le_trans hg1 hlen')
    rw [List.foldl_cons]
    exact ⟨h1, le_trans h2 hme', le_trans hlen' h3⟩

/-- The loop returns a result whenever the fuel exceeds the measure: the
pop shrinks the frontier and the relaxations only ever shrink the rest of
the measure. -/
theorem astarLoop_total (s0 : Board) (hf : Board → Nat) :
    ∀ (fuel : Nat) (s : AState), TInv s0 s → aMeasure s0 s < fuel →
      ∃ r, astarLoop hf fuel s = some r := by
  intro fuel
  induction fuel with
  | zero =>
    intro s _ h
    exact absurd h (Nat.not_lt_zero _)
  | succ fuel ih =>
    intro s hs hlt
    rw [astarLoop_succ]
    cases hpop : popMin s.heap with
    | none => exact ⟨_, rfl⟩
    | some er =>
      obtain ⟨e, rest⟩ := er
      dsimp only
      have hperm := popMin_perm s.heap e rest hpop
      have hlen : s.heap.length = rest.length + 1 := by
        have h := hperm.length_eq
        simpa using h
      have hmem_e : e ∈ s.heap := hperm.mem_iff.mpr (List.mem_cons_self _ _)
      have hsub : ∀ x ∈ rest, x ∈ s.heap :=
        fun x hx => hperm.mem_iff.mpr (List.mem_cons_of_mem _ hx)
      by_cases hstale : (alistGet s.gv e.board.tiles).getD SENT < e.g
      · rw [if_pos hstale]
        apply ih
        · exact ⟨hs.keysNodup, hs.keysPerm, hs.valBound,
            fun x hx => hs.heapRec x (hsub x hx),
            fun x hx => hs.heapGood x (hsub x hx)⟩
        · have hd : dictM s0 (AState.mk rest s.gv s.parent s.tie s.expanded)
              = dictM s0 s := rfl
          unfold aMeasure at hlt ⊢
          rw [hd]
          dsimp only
          omega
      · rw [if_neg hstale]
        by_cases hgoal : e.board.is_goal = true
        · rw [if_pos hgoal]
          exact ⟨_, rfl⟩
        · rw [if_neg hgoal]
          obtain ⟨v, hv, hvle⟩ := hs.heapRec e hmem_e
          have hveq : e.g = v := by
            rw [hv] at hstale
            simp only [Option.getD_some] at hstale
            omega
          have hpair := alistGet_mem _ _ _ hv
          have hVB := hs.valBound _ hpair
          have hgood := hs.heapGood e hmem_e
          have hs1inv : TInv s0 (AState.mk rest s.gv s.parent s.tie (s.expanded + 1)) :=
            ⟨hs.keysNodup, hs.keysPerm, hs.valBound,
              fun x hx => hs.heapRec x (hsub x hx),
              fun x hx => hs.heapGood x (hsub x hx)⟩
          have hg1 : e.g + 1 ≤ (AState.mk rest s.gv s.parent s.tie (s.expanded + 1)).gv.length := by
            dsimp only
            omega
          have hnbs : ∀ nb ∈ e.board.neighbors, nb.Valid ∧ nb.n = s0.n := by
            intro nb hnb
            exact ⟨neighbors_valid e.board hgood.1 nb hnb,
              (neighbors_n e.board nb hnb).trans hgood.2⟩
          obtain ⟨hinv2, hme2, _⟩ := foldl_relax_inv s0 hf e.g e.board e.board.neighbors
            (AState.mk rest s.gv s.parent s.tie (s.expanded + 1)) hnbs hs1inv hg1
          apply ih _ hinv2
          have hd : dictM s0 (AState.mk rest s.gv s.parent s.tie (s.expanded + 1))
              = dictM s0 s := rfl
          have hm1 : aMeasure s0 (AState.mk rest s.gv s.parent s.tie (s.expanded + 1)) + 1
              = aMeasure s0 s := by
            unfold aMeasure
            rw [hd]
            dsimp only
            omega
          omega

/-- The initial search state satisfies the termination invariant. -/
theorem TInv_init (b : Board) (hb : b.Valid) (hf : Board → Nat) :
    TInv b (astarInit b hf) := by
  refine ⟨?_, ?_, ?_, ?_, ?_⟩
  · simp [astarInit]
  · intro k hk
    simp only [astarInit, List.map_cons, List.map_nil, List.mem_singleton] at hk
    rw [hk]
    exact hb.2.1
  · intro p hp
    simp only [astarInit, List.mem_singleton] at hp
    rw [hp]
    exact Nat.le_refl 1
  · intro e he
    simp only [astarInit, List.mem_singleton] at he
    rw [he]
    refine ⟨0, ?_, Nat.le_refl _⟩
    show alistGet [(b.tiles, 0)] b.tiles = some 0
    rw [alistGet_cons, if_pos rfl]
  · intro e he
    simp only [astarInit, List.mem_singleton] at he
    rw [he]
    exact ⟨hb, rfl⟩

/-- The fuel passed by `astar` exceeds the initial measure. -/
theorem aMeasure_init_lt (b : Board) (hf : Board → Nat) :
    aMeasure b (astarInit b hf) < fuelBound b := by
  have h1 : aMeasure b (astarInit b hf) = 2 * ((NB b - 1) * NB b) + 1 := by
    simp [aMeasure, dictM, astarInit, gvSum]
  have hmul : (NB b - 1) * NB b ≤ NB b * NB b := Nat.mul_le_mul_right _ (Nat.sub_le _ _)
  have h2 : fuelBound b = 2 * (NB b * NB b) + 2 := by
    unfold fuelBound NB
    rw [pow_two]
  omega

/-- C2: on every valid start board, with any heuristic, `astar` runs to
completion and returns a `SearchResult` (the loop cannot run forever:
the measure argument bounds its iterations by the proved fuel). -/
theorem claim_C2_terminates (b : Board) (heuristic : Board → Nat) (hb : b.Valid) :
    ∃ r : SearchResult, astar b heuristic = some r := by
  unfold astar
  exact astarLoop_total b heuristic (fuelBound b) (astarInit b heuristic)
    (TInv_init b hb heuristic) (aMeasure_init_lt b heuristic)

/-- Witness for C2 at the 2×2 goal board with the Manhattan heuristic. -/
theorem claim_C2_terminates_witness :
    (Board.goal 2).Valid ∧ ∃ r : SearchResult, astar (Board.goal 2) h2_manhattan = some r :=
  ⟨by decide, claim_C2_terminates (Board.goal 2) h2_manhattan (by decide)⟩

-- ## C1: the `10**15` sentinel versus optimality -----------------------

/-- Extending a move sequence by one legal move. -/
theorem reachN_snoc (b c d : Board) (k : Nat) (h : ReachN b c k) (hd : d ∈ c.neighbors) :
    ReachN b d (k + 1) := by
  induction k generalizing b with
  | zero =>
    have hbc : b = c := h
    subst hbc
    exact ⟨d, hd, rfl⟩
  | succ k ih =>
    obtain ⟨m, hm, hmc⟩ := h
    exact ⟨m, hm, ih m hmc⟩

/-- `h2_manhattan` vanishes on any goal board. -/
theorem h2_goal_zero (c : Board) (hc : c.is_goal = true) : h2_manhattan c = 0 :=
  h2_goalTiles c ((is_goal_iff c).mp hc)

/-- One legal move lowers `h2_manhattan` by at most 1 (the moved tile's
two cells are adjacent, so its Manhattan distance changes by at most 1). -/
theorem h2_le_neighbor_succ (b : Board) (hb : b.Valid) (b' : Board)
    (hmem : b' ∈ b.neighbors) : h2_manhattan b ≤ h2_manhattan b' + 1 := by
  obtain ⟨nz, rfl, hcase⟩ := neighbors_cases b b' hmem
  obtain ⟨hnzlt, hnzne⟩ := neighbor_target_bounds b hb nz hcase
  have heq := h2_neighbor_eq b hb nz hnzlt hnzne
  have hadj := neighbor_adjacent b hb nz hcase
  have htri1 := Nat.dist.triangle_inequality (b.zero / b.n) (nz / b.n)
    ((b.tiles.getD nz 0 - 1) / b.n)
  have htri2 := Nat.dist.triangle_inequality (b.zero % b.n) (nz % b.n)
    ((b.tiles.getD nz 0 - 1) % b.n)
  have htri3 := Nat.dist.triangle_inequality (nz / b.n) (b.zero / b.n)
    ((b.tiles.getD nz 0 - 1) / b.n)
  have htri4 := Nat.dist.triangle_inequality (nz % b.n) (b.zero % b.n)
    ((b.tiles.getD nz 0 - 1) % b.n)
  have hsym1 : Nat.dist (nz / b.n) (b.zero / b.n) = Nat.dist (b.zero / b.n) (nz / b.n) :=
    Nat.dist_comm _ _
  have hsym2 : Nat.dist (nz % b.n) (b.zero % b.n) = Nat.dist (b.zero % b.n) (nz % b.n) :=
    Nat.dist_comm _ _
  unfold manDist at heq
  omega

/-- Admissibility of `h2_manhattan`: it never exceeds the length of any
move sequence from a valid board to a goal board. -/
theorem h2_le_dist (k : Nat) :
    ∀ b : Board, b.Valid → ReachGoalN b k → h2_manhattan b ≤ k := by
  induction k with
  | zero =>
    intro b _ hr
    obtain ⟨c, hbc, hc⟩ := hr
    have hbceq : b = c := hbc
    rw [hbceq, h2_goal_zero c hc]
  | succ k ih =>
    intro b hb hr
    obtain ⟨c, hbc, hc⟩ := hr
    obtain ⟨m, hm, hmc⟩ := hbc
    have hmv : m.Valid := neighbors_valid b hb m hm
    have h1 := ih m hmv ⟨c, hmc, hc⟩
    have h2 := h2_le_neighbor_succ b hb m hm
    omega

/-- The reachability invariant of the loop: every frontier entry's board
is reachable from the start in exactly its `g` moves, and every recorded
and every frontier cost stays below the `10**15` sentinel. -/
structure CInv (b0 : Board) (s : AState) : Prop where
  hp : ∀ e ∈ s.heap, ReachN b0 e.board e.g ∧ e.g < SENT
  hg : ∀ p ∈ s.gv, p.2 < SENT

/-- `relax` preserves the reachability invariant: a push happens only
when `g + 1` beats the recorded cost, hence only below the sentinel. -/
theorem relax_CInv (b0 : Board) (hf : Board → Nat) (g : Nat) (cur nb : Board)
    (hcur : ReachN b0 cur g) (hnb : nb ∈ cur.neighbors) (s : AState) (hs : CInv b0 s) :
    CInv b0 (relax hf g cur s nb) := by
  have hrelax : relax hf g cur s nb =
      if g + 1 < (alistGet s.gv nb.tiles).getD SENT then
        AState.mk (Entry.mk (g + 1 + hf nb) (g + 1) s.tie nb :: s.heap)
          (alistSet s.gv nb.tiles (g + 1)) (alistSet s.parent nb.tiles (some cur))
          (s.tie + 1) s.expanded
      else s := rfl
  rw [hrelax]
  by_cases hguard : g + 1 < (alistGet s.gv nb.tiles).getD SENT
  · rw [if_pos hguard]
    have hlt : g + 1 < SENT := by
      cases hget : alistGet s.gv nb.tiles with
      | none =>
        rw [hget] at hguard
        simpa using hguard
      | some v =>
        rw [hget] at hguard
        simp only [Option.getD_some] at hguard
        have hv := hs.hg _ (alistGet_mem _ _ _ hget)
        omega
    refine ⟨?_, ?_⟩
    · intro e he
      rcases List.mem_cons.mp he with rfl | he
      · exact ⟨reachN_snoc b0 cur nb g hcur hnb, hlt⟩
      · exact hs.hp e he
    · intro p hpm
      rcases alistSet_mem_cases _ _ _ _ hpm with rfl | hpm
      · exact hlt
      · exact hs.hg p hpm
  · rw [if_neg hguard]
    exact hs

/-- Folding `relax` over neighbours of a reached board preserves the
reachability invariant. -/
theorem foldl_relax_CInv (b0 : Board) (hf : Board → Nat) (g : Nat) (cur : Board)
    (hcur : ReachN b0 cur g) (l : List Board) :
    (∀ nb ∈ l, nb ∈ cur.neighbors) → ∀ s : AState, CInv b0 s →
      CInv b0 (l.foldl (relax hf g cur) s) := by
  induction l with
  | nil =>
    intro _ s hs
    exact hs
  | cons nb rest ih =>
    intro hl s hs
    rw [List.foldl_cons]
    exact ih (fun x hx => hl x (List.mem_cons_of_mem _ hx)) (relax hf g cur s nb)
      (relax_CInv b0 hf g cur nb hcur (hl nb (List.mem_cons_self _ _)) s hs)

/-- If every goal board is at least `SENT` moves from the start, the loop
can never take its goal branch: whatever it returns has `solved = false`. -/
theorem astarLoop_no_goal (b0 : Board) (hf : Board → Nat)
    (hfar : ∀ k, ReachGoalN b0 k → SENT ≤ k) :
    ∀ (fuel : Nat) (s : AState), CInv b0 s →
      ∀ r, astarLoop hf fuel s = some r → r.solved = false := by
  intro fuel
  induction fuel with
  | zero =>
    intro s _ r hr
    exact absurd hr (by simp [astarLoop])
  | succ fuel ih =>
    intro s hs r hr
    rw [astarLoop_succ] at hr
    cases hpop : popMin s.heap with
    | none =>
      rw [hpop] at hr
      dsimp only at hr
      have hre := Option.some.inj hr
      rw [← hre]
    | some er =>
      obtain ⟨e, rest⟩ := er
      rw [hpop] at hr
      dsimp only at hr
      have hperm := popMin_perm s.heap e rest hpop
      have hmem_e : e ∈ s.heap := hperm.mem_iff.mpr (List.mem_cons_self _ _)
      have hsub : ∀ x ∈ rest, x ∈ s.heap :=
        fun x hx => hperm.mem_iff.mpr (List.mem_cons_of_mem _ hx)
      by_cases hstale : (alistGet s.gv e.board.tiles).getD SENT < e.g
      · rw [if_pos hstale] at hr
        exact ih (AState.mk rest s.gv s.parent s.tie s.expanded)
          ⟨fun x hx => hs.hp x (hsub x hx), hs.hg⟩ r hr
      · rw [if_neg hstale] at hr
        by_cases hgoal : e.board.is_goal = true
        · exfalso
          obtain ⟨hreach, hlt⟩ := hs.hp e hmem_e
          have hgk : ReachGoalN b0 e.g := ⟨e.board, hreach, hgoal⟩
          have := hfar e.g hgk
          omega
        · rw [if_neg hgoal] at hr
          obtain ⟨hreach, _⟩ := hs.hp e hmem_e
          refine ih _ ?_ r hr
          exact foldl_relax_CInv b0 hf e.g e.board hreach e.board.neighbors
            (fun x hx => hx) (AState.mk rest s.gv s.parent s.tie (s.expanded + 1))
            ⟨fun x hx => hs.hp x (hsub x hx), hs.hg⟩

/-- The initial state satisfies the reachability invariant. -/
theorem CInv_init (b : Board) (hf : Board → Nat) : CInv b (astarInit b hf) := by
  refine ⟨?_, ?_⟩
  · intro e he
    simp only [astarInit, List.mem_singleton] at he
    rw [he]
    exact ⟨rfl, show (0 : Nat) < SENT by decide⟩
  · intro p hp
    simp only [astarInit, List.mem_singleton] at hp
    rw [hp]
    show (0 : Nat) < SENT
    decide

/-- A sorted list has no inversions. -/
theorem inversions_eq_zero_of_pairwise (l : List Nat) (h : l.Pairwise (· < ·)) :
    inversions l = 0 := by
  induction l with
  | nil => rfl
  | cons a rest ih =>
    rw [List.pairwise_cons] at h
    show rest.countP (fun x => decide (x < a)) + inversions rest = 0
    rw [ih h.2, List.countP_eq_zero.mpr, Nat.add_zero]
    intro x hx
    simp only [decide_eq_true_eq]
    have := h.1 x hx
    omega

/-- The cyclically shifted board: flat tiles `(0, 1, ..., n*n-1)` with
the blank in the top-left corner. -/
def shiftBoard (n : Nat) : Board := ⟨n, List.range (n * n), 0⟩

theorem shiftBoard_valid (n : Nat) (hn : 2 ≤ n) : (shiftBoard n).Valid := by
  have hpos : 0 < n * n := Nat.mul_pos (by omega) (by omega)
  refine ⟨hn, List.Perm.refl _, ?_⟩
  have hm : n * n = (n * n - 1) + 1 := by omega
  show (0 : Nat) = (List.range (n * n)).findIdx (fun x => decide (x = 0))
  rw [hm, List.range_succ_eq_map, List.findIdx_cons]
  norm_num

/-- For odd `n` the shifted board passes the solvability test: its
non-blank tiles are sorted, so the inversion count is zero. -/
theorem shiftBoard_solvable (n : Nat) (hodd : n % 2 = 1) :
    (shiftBoard n).is_solvable = true := by
  have harr : inversions ((List.range (n * n)).filter (fun x => decide (x ≠ 0))) = 0 :=
    inversions_eq_zero_of_pairwise _ (List.Pairwise.filter _ (List.pairwise_lt_range _))
  rw [is_solvable_def]
  show (if n % 2 = 1 then
      decide (inversions ((List.range (n * n)).filter (fun x => decide (x ≠ 0))) % 2 = 0)
    else _) = true
  rw [if_pos hodd, harr]
  rfl

/-- A single term bounds an indexed sum from below. -/
theorem sumIdx_ge (f : Nat → Nat → Nat) :
    ∀ (l : List Nat) (i j : Nat), j < l.length → f (i + j) (l.getD j 0) ≤ sumIdx f i l := by
  intro l
  induction l with
  | nil =>
    intro i j hj
    simp at hj
  | cons a rest ih =>
    intro i j hj
    cases j with
    | zero =>
      rw [Nat.add_zero]
      exact Nat.le_add_right _ _
    | succ j =>
      have h := ih (i + 1) j (by simpa using hj)
      have hidx : i + (j + 1) = (i + 1) + j := by omega
      rw [hidx, List.getD_cons_succ]
      exact le_trans h (Nat.le_add_left _ _)

/-- The tile `n` of the shifted board sits at flat index `n` (row 1,
column 0) while its goal cell is `(0, n-1)`: Manhattan distance `n`.
Hence `h2_manhattan (shiftBoard n) ≥ n`. -/
theorem h2_shiftBoard_ge (n : Nat) (hn : 2 ≤ n) : n ≤ h2_manhattan (shiftBoard n) := by
  have hnn : n < n * n := by
    have h := Nat.mul_le_mul_left n hn
    omega
  have hlen : (List.range (n * n)).length = n * n := List.length_range _
  have hterm := sumIdx_ge (fun i v => if v = 0 then 0 else manDist n i v)
    (List.range (n * n)) 0 n (by omega)
  have hgetD : (List.range (n * n)).getD n 0 = n := by
    rw [List.getD_eq_getElem _ _ (by omega)]
    exact List.getElem_range _ (by simpa [hlen] using hnn)
  rw [hgetD, Nat.zero_add] at hterm
  dsimp only at hterm
  have hman : manDist n n n = n := by
    unfold manDist
    have h1 : n / n = 1 := Nat.div_self (by omega)
    have h2 : (n - 1) / n = 0 := Nat.div_eq_of_lt (by omega)
    have h3 : n % n = 0 := Nat.mod_self n
    have h4 : (n - 1) % n = n - 1 := Nat.mod_eq_of_lt (by omega)
    rw [h1, h2, h3, h4]
    simp [Nat.dist]
    omega
  rw [if_neg (by omega), hman] at hterm
  rw [h2_eq_sumIdx]
  exact hterm

/-- C1: REFUTED by the `10**15` sentinel. The board
`(0, 1, ..., n*n-1)` with `n = 10^15 + 1` is valid and passes the
solvability test (odd `n`, zero inversions), the all-zero heuristic is
admissible, and every path from it to a goal board has length at least
`SENT = 10^15` (its Manhattan sum is that large) — yet `astar` returns a
result with `solved = false`, because `relax` skips every push whose
`g + 1` fails to beat the `10**15` default that `dict.get` hands out for
an unrecorded state, so no goal state is ever pushed. The claim requires
`solved = true` with the optimal depth for every valid, solvable start
and admissible heuristic; this start is a counterexample. -/
theorem claim_C1_sentinel_unsolved :
    ∃ (b : Board) (heuristic : Board → Nat),
      b.Valid ∧ b.is_solvable = true ∧
      (∀ c k, ReachGoalN c k → heuristic c ≤ k) ∧
      (∀ k, ReachGoalN b k → SENT ≤ k) ∧
      ∃ r, astar b heuristic = some r ∧ r.solved = false := by
  have hn2 : 2 ≤ SENT + 1 := by decide
  have hodd : (SENT + 1) % 2 = 1 := by decide
  have hvalid := shiftBoard_valid (SENT + 1) hn2
  have hfar : ∀ k, ReachGoalN (shiftBoard (SENT + 1)) k → SENT ≤ k := by
    intro k hk
    have hle := h2_le_dist k (shiftBoard (SENT + 1)) hvalid hk
    have hge := h2_shiftBoard_ge (SENT + 1) hn2
    omega
  obtain ⟨r, hr⟩ := astarLoop_total (shiftBoard (SENT + 1)) (fun _ => 0)
    (fuelBound (shiftBoard (SENT + 1))) (astarInit (shiftBoard (SENT + 1)) (fun _ => 0))
    (TInv_init (shiftBoard (SENT + 1)) hvalid (fun _ => 0))
    (aMeasure_init_lt (shiftBoard (SENT + 1)) (fun _ => 0))
  refine ⟨shiftBoard (SENT + 1), fun _ => 0, hvalid,
    shiftBoard_solvable (SENT + 1) hodd, fun _ _ _ => Nat.zero_le _, hfar, r, ?_, ?_⟩
  · unfold astar
    exact hr
  · exact astarLoop_no_goal (shiftBoard (SENT + 1)) (fun _ => 0) hfar
      (fuelBound (shiftBoard (SENT + 1))) (astarInit (shiftBoard (SENT + 1)) (fun _ => 0))
      (CInv_init (shiftBoard (SENT + 1)) (fun _ => 0)) r hr

/-- Witness for C3 at the Scenario-3 board `[[2,1,3],[4,5,6],[7,8,0]]`. -/
theorem claim_C3_domination_witness :
    h1_misplaced ⟨3, [2,1,3,4,5,6,7,8,0], 8⟩ ≤ h2_manhattan ⟨3, [2,1,3,4,5,6,7,8,0], 8⟩ ∧
      h2_manhattan ⟨3, [2,1,3,4,5,6,7,8,0], 8⟩ ≤ h3_linear_conflict ⟨3, [2,1,3,4,5,6,7,8,0], 8⟩ :=
  claim_C3_domination _ (by decide)
example : astar (Board.goal 3) h1_misplaced =
    some ⟨true, 0, 1, some [Board.goal 3]⟩ := by decide
example : ∃ r, astar ⟨3, [1,2,3,4,5,6,7,0,8], 7⟩ h2_manhattan = some r ∧
    r.solved = true ∧ r.solution_depth = 1 := by decide
example : Board.from_rows [[0], [1,2,3]] = .ok ⟨2, [0,1,2,3], 0⟩ := rfl
